import Mathlib

/-!
# Cantata rules playlists: persistence and collection model

A shallow embedding of `src/playlists/rulesplaylists.cpp` (class `RulesPlaylists`):
the line-oriented `.rules` file format written by `save` and read by `loadLocal`,
and the in-memory collection maintained by `updateEntry`, `del` and `find`.

Strings (`QString`) are lists of characters.  The store is a record holding the
entry list, the active entry name, the rules directory and the log of signals
emitted so far; every operation is a function from store to store.
-/

/-- A `QString`, as the list of its characters. -/
abbrev QString := List Char

namespace QString

/-- The line feed character written by `save` after every line. -/
def newline : Char := Char.ofNat 10

/-- The carriage return character, which a read in text mode drops. -/
def carriageReturn : Char := Char.ofNat 13

/-- The call `QTextStream::readAll` on a file opened with `QIODevice::Text`: the stored text
without its carriage returns. -/
def readAll (raw : QString) : QString := raw.filter (fun c => c != carriageReturn)

/-- Qt's `QChar::isSpace`: space, the controls U+0009..U+000D, U+0085, U+00A0 and the
Unicode separator categories Zs, Zl and Zp. -/
def isSpace (c : Char) : Bool :=
  let n := c.toNat
  n == 0x20 || (0x09 ≤ n && n ≤ 0x0d) || n == 0x85 || n == 0xa0 || n == 0x1680 ||
    (0x2000 ≤ n && n ≤ 0x200a) || n == 0x2028 || n == 0x2029 || n == 0x202f ||
    n == 0x205f || n == 0x3000

/-- The method `QString::trimmed`: whitespace removed from both ends. -/
def trimmed (s : QString) : QString :=
  (s.dropWhile isSpace).rdropWhile isSpace

/-- The method `QString::startsWith`. -/
def startsWith (s p : QString) : Bool := p.isPrefixOf s

/-- The method `QString::mid(n)`: everything from position `n` on. -/
def mid (s : QString) (n : Nat) : QString := s.drop n

/-- The method `QString::left(n)`: the first `n` characters. -/
def left (s : QString) (n : Nat) : QString := s.take n

/-- First field of a string and the list of the remaining fields, for separator `sep`. -/
def splitFields (sep : Char) : QString → QString × List QString
  | [] => ([], [])
  | c :: cs =>
    if c = sep then ([], (splitFields sep cs).1 :: (splitFields sep cs).2)
    else (c :: (splitFields sep cs).1, (splitFields sep cs).2)

/-- The method `QString::split(sep)` with the default `KeepEmptyParts`. -/
def split (sep : Char) (s : QString) : List QString :=
  (splitFields sep s).1 :: (splitFields sep s).2

/-- The method `QString::split(sep, QString::SkipEmptyParts)`. -/
def splitSkipEmpty (sep : Char) (s : QString) : List QString :=
  (split sep s).filter (fun p => !p.isEmpty)

/-- Decimal digit character of a number below ten. -/
def digitChar (d : Nat) : Char := Char.ofNat (48 + d)

/-- Decimal rendering with an explicit recursion budget. -/
def numberAux : Nat → Nat → QString → QString
  | 0, _, acc => acc
  | fuel + 1, n, acc =>
    if n < 10 then digitChar n :: acc
    else numberAux fuel (n / 10) (digitChar (n % 10) :: acc)

/-- Decimal rendering of an integer, as `QTextStream` writes it. -/
def number (n : Nat) : QString := numberAux (n + 1) n []

/-- Whether a character is a decimal digit. -/
def isDigit (c : Char) : Bool := 48 ≤ c.toNat && c.toNat ≤ 57

/-- Value of a digit string, most significant digit first. -/
def digitsValue (s : QString) : Nat := s.foldl (fun a c => 10 * a + (c.toNat - 48)) 0

/-- Modelled from the spec: Qt's `QString::toUInt` (a library routine, not in the repository),
which reads "unsigned integers".  A non-empty string of decimal digits whose value fits in 32 bits
gives that value; anything else gives Qt's failure value 0. -/
def toUInt (s : QString) : Nat :=
  if s.isEmpty || !s.all isDigit then 0
  else if digitsValue s < 2 ^ 32 then digitsValue s else 0

end QString

namespace RulesPlaylists

open QString

/-! ## Constants -/

def constExtension : QString := ".rules".toList
def constRuleKey : QString := "Rule".toList
def constArtistKey : QString := "Artist".toList
def constSimilarArtistsKey : QString := "SimilarArtists".toList
def constAlbumArtistKey : QString := "AlbumArtist".toList
def constComposerKey : QString := "Composer".toList
def constCommentKey : QString := "Comment".toList
def constAlbumKey : QString := "Album".toList
def constTitleKey : QString := "Title".toList
def constGenreKey : QString := "Genre".toList
def constDateKey : QString := "Date".toList
def constRatingKey : QString := "Rating".toList
def constDurationKey : QString := "Duration".toList
def constNumTracksKey : QString := "NumTracks".toList
def constFileKey : QString := "File".toList
def constExactKey : QString := "Exact".toList
def constExcludeKey : QString := "Exclude".toList
def constRangeSep : Char := Char.ofNat 45
def constKeyValSep : Char := Char.ofNat 58

/-! ## Data model -/

/-- Modelled from the spec: the mapping type `Rule` (its declaration is in a header outside the
sources), kept as the list of its key/value pairs in iteration order.  A well-formed mapping has
pairwise distinct keys. -/
abbrev Rule := List (QString × QString)

/-- The method `Rule::insert`: the value of an existing key is replaced, a new key is added. -/
def Rule.insert (k v : QString) : Rule → Rule
  | [] => [(k, v)]
  | (k', v') :: r => if k' = k then (k, v) :: r else (k', v') :: Rule.insert k v r

/-- The value stored under a key, if any. -/
def Rule.value (k : QString) (r : Rule) : Option QString :=
  (r.find? (fun kv => kv.1 == k)).map Prod.snd

/-- Keys of a mapping are pairwise distinct. -/
def Rule.WF (r : Rule) : Prop := (r.map Prod.fst).Nodup

/-- Modelled from the spec: the record `Entry` (declared in a header outside the sources).  The
numeric filters are non-negative integers. -/
structure Entry where
  name : QString
  rules : List Rule
  ratingFrom : Nat
  ratingTo : Nat
  minDuration : Nat
  maxDuration : Nat
  numTracks : Nat
  deriving DecidableEq, Repr

/-- Signals and model notifications emitted by the store, in the order of emission. -/
inductive Event where
  | beginResetModel
  | endResetModel
  | dataChanged (topLeft bottomRight : Option Nat)
  | beginInsertRows (first last : Nat)
  | endInsertRows
  | beginRemoveRows (first last : Nat)
  | endRemoveRows
  | stop
  deriving DecidableEq, Repr

/-- The rules directory: absent, or the files it holds as (file name, stored text) pairs in
listing order.  The text written to a file is the text stored; a read in text mode gives the
stored text without its carriage returns (`readAll`). -/
abbrev Dir := Option (List (QString × QString))

/-- Collaborators of the store that are not part of the sources: the track-count window of the
concrete subtype, the default track count of a fresh `Entry`, the remote mode and its writer, the
outcome of opening and removing files, and which file names the directory scan
`entryList("*.rules")` lists (Qt decides on the case sensitivity of the wildcard and on hidden
files). -/
structure Env where
  minTracks : Nat
  maxTracks : Nat
  defaultNumTracks : Nat
  isRemote : Bool
  saveRemote : QString → Entry → Bool
  canOpenWrite : QString → Bool
  canOpenRead : QString → Bool
  canRemove : QString → Bool
  entryListed : QString → Bool

end RulesPlaylists

/-- The store: entry list, name of the active entry, rules directory, and emitted signals. -/
structure RulesPlaylists where
  entryList : List RulesPlaylists.Entry
  currentEntry : QString
  dir : RulesPlaylists.Dir
  events : List RulesPlaylists.Event

namespace RulesPlaylists

open QString

/-- A default-constructed `Entry` with the given name. -/
def Entry.fresh (env : Env) (n : QString) : Entry :=
  { name := n, rules := [], ratingFrom := 0, ratingTo := 0, minDuration := 0, maxDuration := 0,
    numTracks := env.defaultNumTracks }

/-! ## Serialisation (`save`) -/

/-- One step of the inner loop of `save`: a key/value line appended to the stream. -/
def writeKeyValue (str : QString) (kv : QString × QString) : QString :=
  str ++ kv.1 ++ [constKeyValSep] ++ kv.2 ++ [newline]

/-- One step of the rule loop of `save`: a non-empty rule is written as a `Rule` line followed
by its key/value lines; an empty rule writes nothing. -/
def writeRule (str : QString) (rule : Rule) : QString :=
  if !rule.isEmpty then rule.foldl writeKeyValue (str ++ constRuleKey ++ [newline]) else str

/-- The text `save` builds in its local `string` before any file is touched. -/
def saveText (env : Env) (e : Entry) : QString :=
  let str : QString := []
  let str :=
    if e.numTracks ≥ env.minTracks && e.numTracks ≤ env.maxTracks then
      str ++ constNumTracksKey ++ [constKeyValSep] ++ number e.numTracks ++ [newline]
    else str
  let str :=
    if e.ratingFrom != 0 || e.ratingTo != 0 then
      str ++ constRatingKey ++ [constKeyValSep] ++ number e.ratingFrom ++ [constRangeSep] ++
        number e.ratingTo ++ [newline]
    else str
  let str :=
    if e.minDuration != 0 || e.maxDuration != 0 then
      str ++ constDurationKey ++ [constKeyValSep] ++ number e.minDuration ++ [constRangeSep] ++
        number e.maxDuration ++ [newline]
    else str
  e.rules.foldl writeRule str

/-! ## The rules directory -/

/-- The collaborator `Utils::dataDir(rulesDir, create)`: the directory is created on request. -/
def dataDir (create : Bool) (d : Dir) : Dir :=
  match d with
  | none => if create then some [] else none
  | some files => some files

/-- The call `QFile::exists`. -/
def fileExists (d : Dir) (fName : QString) : Bool :=
  match d with
  | none => false
  | some files => files.any (fun f => f.1 == fName)

/-- Text stored under a file name in a file list: an existing file is overwritten in place, a new
one is added. -/
def putFile (fName text : QString) : List (QString × QString) → List (QString × QString)
  | [] => [(fName, text)]
  | f :: fs => if f.1 = fName then (fName, text) :: fs else f :: putFile fName text fs

/-- A file opened with `WriteOnly` and written in full. -/
def writeFile (d : Dir) (fName text : QString) : Dir :=
  match d with
  | none => none
  | some files => some (putFile fName text files)

/-- A successful `QFile::remove`. -/
def removeFile (d : Dir) (fName : QString) : Dir :=
  match d with
  | none => none
  | some files => some (files.filter (fun f => !(f.1 == fName)))

/-- The listing `d.entryList("*.rules")`: the files the directory scan lists. -/
def rulesFiles (env : Env) (files : List (QString × QString)) : List (QString × QString) :=
  files.filter (fun f => env.entryListed f.1)

/-! ## Collection operations -/

/-- The method `find`: position of the first entry with the given name, the length of the list
(the end iterator) when there is none. -/
def find (entryList : List Entry) (e : QString) : Nat :=
  entryList.findIdx (fun x => x.name == e)

/-- The method `index(row, 0, QModelIndex())`: a valid index only for an existing row (the
model has a first column, so `hasIndex` reduces to the row test). -/
def index (entryList : List Entry) (row : Nat) : Option Nat :=
  if row ≥ entryList.length then none else some row

/-- The method `updateEntry`. -/
def updateEntry (e : Entry) (m : RulesPlaylists) : RulesPlaylists :=
  let it := find m.entryList e.name
  if it ≠ m.entryList.length then
    let entryList := m.entryList.set it e
    let idx := index entryList it
    { m with entryList := entryList, events := m.events ++ [Event.dataChanged idx idx] }
  else
    { m with
      entryList := m.entryList ++ [e],
      events := m.events ++
        [Event.beginInsertRows m.entryList.length m.entryList.length, Event.endInsertRows] }

/-- The method `save`: the returned flag and the store afterwards.  In remote mode the text is
handed to the remote writer, whose effects lie outside this store. -/
def save (env : Env) (e : Entry) (m : RulesPlaylists) : Bool × RulesPlaylists :=
  if e.name.isEmpty then (false, m)
  else
    let string := saveText env e
    if env.isRemote then (env.saveRemote string e, m)
    else
      let m := { m with dir := dataDir true m.dir }
      let f := e.name ++ constExtension
      if env.canOpenWrite f then
        (true, updateEntry e { m with dir := writeFile m.dir f string })
      else (false, m)

/-- The method `del`. -/
def del (env : Env) (name : QString) (m : RulesPlaylists) : RulesPlaylists :=
  let it := find m.entryList name
  if it = m.entryList.length then m
  else
    let fName := name ++ constExtension
    let isCurrent := m.currentEntry == name
    let removeRow (m : RulesPlaylists) : RulesPlaylists :=
      { m with
        entryList := m.entryList.eraseIdx it,
        events := m.events ++ (if isCurrent then [Event.stop] else []) ++
          [Event.beginRemoveRows it it, Event.endRemoveRows] }
    if !fileExists (dataDir false m.dir) fName then removeRow m
    else if env.canRemove fName then removeRow { m with dir := removeFile m.dir fName }
    else m

/-! ## Parsing (`loadLocal`) -/

/-- The key list built inside `loadLocal`. -/
def keys : List QString :=
  [constArtistKey, constSimilarArtistsKey, constAlbumArtistKey, constDateKey, constExactKey,
   constAlbumKey, constTitleKey, constGenreKey, constFileKey, constExcludeKey]

/-- Body of the line loop of `loadLocal`, on the entry being built and the rule in progress. -/
def parseLine (st : Entry × Rule) (line : QString) : Entry × Rule :=
  let e := st.1
  let r := st.2
  let str := trimmed line
  if str.isEmpty || startsWith str [Char.ofNat 35] then st
  else if str = constRuleKey then
    if !r.isEmpty then ({ e with rules := e.rules ++ [r] }, []) else st
  else if startsWith str (constRatingKey ++ [constKeyValSep]) then
    let vals := split constRangeSep (mid str (constRatingKey.length + 1))
    if 2 = vals.length then
      ({ e with ratingFrom := toUInt (vals.getD 0 []), ratingTo := toUInt (vals.getD 1 []) }, r)
    else st
  else if startsWith str (constDurationKey ++ [constKeyValSep]) then
    let vals := split constRangeSep (mid str (constDurationKey.length + 1))
    if 2 = vals.length then
      ({ e with minDuration := toUInt (vals.getD 0 []), maxDuration := toUInt (vals.getD 1 []) }, r)
    else st
  else
    (e, keys.foldl
      (fun r k => if startsWith str (k ++ [constKeyValSep]) then r.insert k (mid str (k.length + 1))
        else r) r)

/-- The rule in progress appended to the entry when it is not empty (end of the line loop). -/
def flushRule (st : Entry × Rule) : Entry :=
  if !st.2.isEmpty then { st.1 with rules := st.1.rules ++ [st.2] } else st.1

/-- The entry `loadLocal` builds from one readable file: its name and the text `in.readAll()`
returns for it. -/
def parseFile (env : Env) (rf text : QString) : Entry :=
  let e := { Entry.fresh env [] with name := left rf (rf.length - constExtension.length) }
  let lines := splitSkipEmpty newline text
  flushRule (lines.foldl parseLine (e, []))

/-- The method `loadLocal`.  Every listed file that can be opened is read in text mode and
parsed. -/
def loadLocal (env : Env) (m : RulesPlaylists) : RulesPlaylists :=
  let events := m.events ++ [Event.beginResetModel]
  let entryList : List Entry :=
    match dataDir false m.dir with
    | none => []
    | some files =>
      (rulesFiles env files).filterMap
        (fun f => if env.canOpenRead f.1 then some (parseFile env f.1 (readAll f.2)) else none)
  { m with entryList := entryList, currentEntry := [], events := events ++ [Event.endResetModel] }

/-- The constructor: an empty store over the given directory, then `loadLocal`. -/
def construct (env : Env) (d : Dir) : RulesPlaylists :=
  loadLocal env { entryList := [], currentEntry := [], dir := d, events := [] }

/-- Text of a file of the rules directory, if the file is there. -/
def readFile (d : Dir) (fName : QString) : Option QString :=
  match d with
  | none => none
  | some files => (files.find? (fun f => f.1 == fName)).map Prod.snd

/-- Whether a string ends in a whitespace character (which `trimmed` would remove). -/
def endsInSpace (v : QString) : Bool :=
  match v.getLast? with
  | some c => isSpace c
  | none => false

/-- A rule survives a save and a load unchanged when its keys are pairwise distinct and among
those the loader reads, and its values hold no line feed, hold no carriage return and do not end
in whitespace. -/
def Rule.Storable (r : Rule) : Prop :=
  Rule.WF r ∧
    ∀ kv ∈ r, kv.1 ∈ keys ∧ newline ∉ kv.2 ∧ endsInSpace kv.2 = false ∧ carriageReturn ∉ kv.2

/-! ## The file format as the specification words it -/

/-- A text from its lines: every line is followed by a line feed. -/
def unlines (ls : List QString) : QString :=
  (ls.map (fun l => l ++ [newline])).flatten

/-- Lines the specification prescribes for one rule: nothing for an empty rule, otherwise the
line `Rule` followed by one `key:value` line per key, in the key order of the mapping. -/
def specRuleLines (rule : Rule) : List QString :=
  if rule = [] then []
  else constRuleKey :: rule.map (fun kv => kv.1 ++ [constKeyValSep] ++ kv.2)

/-- Lines the specification prescribes for an entry: the track count when it lies in the valid
window, the rating range unless both ends are zero, the duration range unless both ends are zero,
then the lines of every rule in rule order. -/
def specLines (env : Env) (e : Entry) : List QString :=
  (if env.minTracks ≤ e.numTracks ∧ e.numTracks ≤ env.maxTracks then
      [constNumTracksKey ++ [constKeyValSep] ++ number e.numTracks] else []) ++
  (if ¬ (e.ratingFrom = 0 ∧ e.ratingTo = 0) then
      [constRatingKey ++ [constKeyValSep] ++ number e.ratingFrom ++ [constRangeSep] ++
        number e.ratingTo] else []) ++
  (if ¬ (e.minDuration = 0 ∧ e.maxDuration = 0) then
      [constDurationKey ++ [constKeyValSep] ++ number e.minDuration ++ [constRangeSep] ++
        number e.maxDuration] else []) ++
  e.rules.flatMap specRuleLines

/-! ## Reachable states -/

/-- File names of the rules directory are pairwise distinct. -/
def Dir.WF (d : Dir) : Prop :=
  match d with
  | none => True
  | some files => (files.map Prod.fst).Nodup

/-- Every file the directory scan lists has a name ending in the extension. -/
def Dir.ListedHaveExtension (env : Env) (d : Dir) : Prop :=
  match d with
  | none => True
  | some files => ∀ f ∈ files, env.entryListed f.1 = true → constExtension.isSuffixOf f.1 = true

/-- States of the store reachable from construction over the directory `d` by `loadLocal`,
`save`, `updateEntry` and `del`, where `updateEntry` is applied to the entries `allowed`. -/
inductive Reachable (env : Env) (d : Dir) (allowed : Entry → Prop) : RulesPlaylists → Prop where
  | construct : Reachable env d allowed (construct env d)
  | loadLocal (m : RulesPlaylists) :
      Reachable env d allowed m → Reachable env d allowed (loadLocal env m)
  | save (m : RulesPlaylists) (e : Entry) :
      Reachable env d allowed m → Reachable env d allowed (save env e m).2
  | updateEntry (m : RulesPlaylists) (e : Entry) :
      allowed e → Reachable env d allowed m → Reachable env d allowed (updateEntry e m)
  | del (m : RulesPlaylists) (name : QString) :
      Reachable env d allowed m → Reachable env d allowed (del env name m)

/-! ## The tabular view (`data`) -/

/-- The values `data` returns.  For the sub-text of a row these are the arguments handed to the
translated text: the count of `"%n Rule(s)"` and, when the entry has a rating, the two ends of the
range (before their division by the rating step).  Title, description and icon of the container
come from collaborators. -/
inductive QVariant where
  | invalid
  | text (s : QString)
  | subText (ruleCount : Nat) (rating : Option (Nat × Nat))
  | title
  | descr
  | icon
  deriving DecidableEq, Repr

/-- The rule count a sub-text reports. -/
def QVariant.ruleCount : QVariant → Option Nat
  | QVariant.subText n _ => some n
  | _ => none

/-- A local store environment in which every file operation succeeds and the directory scan
lists the file names ending in the extension. -/
def sampleEnv : Env :=
  { minTracks := 10, maxTracks := 500, defaultNumTracks := 10, isRemote := false,
    saveRemote := fun _ _ => false, canOpenWrite := fun _ => true, canOpenRead := fun _ => true,
    canRemove := fun _ => true, entryListed := fun n => constExtension.isSuffixOf n }

/-- A local store environment in which no file can be removed. -/
def stuckEnv : Env := { sampleEnv with canRemove := fun _ => false }

/-- The entry of the specification example: one rule for the artist Bach, rating 80 to 100. -/
def favorites : Entry :=
  { name := "Favorites".toList, rules := [[(constArtistKey, "Bach".toList)]],
    ratingFrom := 80, ratingTo := 100, minDuration := 0, maxDuration := 0, numTracks := 10 }

/-- A second entry, with two rules and a duration window. -/
def baroque : Entry :=
  { name := "Baroque".toList,
    rules := [[(constGenreKey, "Baroque".toList), (constDateKey, "1700".toList)],
      [(constAlbumKey, "Water Music".toList)]],
    ratingFrom := 0, ratingTo := 0, minDuration := 60, maxDuration := 600, numTracks := 20 }

/-- The entry `favorites` with its rating window changed. -/
def favorites2 : Entry := { favorites with ratingFrom := 60 }

/-- The entry `favorites` with a space after the artist name. -/
def spaced : Entry := { favorites with rules := [[(constArtistKey, "Bach ".toList)]] }

/-- An entry with one rule on the composer. -/
def composerEntry : Entry := { favorites with rules := [[(constComposerKey, "Bach".toList)]] }

/-- An entry with one rule on the comment. -/
def commentEntry : Entry := { favorites with rules := [[(constCommentKey, "live".toList)]] }

/-- A text of two lines: a rule with one artist. -/
def sampleHead : QString := unlines ["Rule".toList, "Artist:Bach".toList]

/-- A text of two lines: a duration range and a title. -/
def sampleTail : QString := unlines ["Duration:60-600".toList, "Title:Air".toList]

/-- A text of four lines: a rating range, a rule with one artist, and a title in the same rule. -/
def sampleText : QString :=
  unlines ["Rating:80-100".toList, "Rule".toList, "Artist:Bach".toList, "Title:Air".toList]

/-- The line `Rule` stored with a carriage return in its middle. -/
def brokenRule : QString := "Ru".toList ++ [carriageReturn] ++ "le".toList

/-- A text of one line: a title. -/
def sampleTitle : QString := unlines ["Title:Air".toList]

/-- An empty store over a directory whose only file, `Favorites.rules`, holds the given text. -/
def storeOver (text : QString) : RulesPlaylists :=
  { entryList := [], currentEntry := [], dir := some [("Favorites.rules".toList, text)],
    events := [] }

/-- A store holding `baroque` and `favorites`, in this order, over an existing directory that
holds the file of `favorites` only. -/
def sampleStore : RulesPlaylists :=
  { entryList := [baroque, favorites], currentEntry := favorites.name,
    dir := some [("Favorites.rules".toList, saveText sampleEnv favorites)], events := [] }

end RulesPlaylists

/-! ## Basic facts about `find` -/

namespace RulesPlaylists

open QString

theorem find_le_length (l : List Entry) (n : QString) : find l n ≤ l.length :=
  List.findIdx_le_length _

theorem find_eq_length_iff (l : List Entry) (n : QString) :
    find l n = l.length ↔ ∀ x ∈ l, x.name ≠ n := by
  simp [find]

theorem find_lt_length_iff (l : List Entry) (n : QString) :
    find l n < l.length ↔ ∃ x ∈ l, x.name = n := by
  simp [find]

/-- The iterator `find` returns is the first position holding the name. -/
theorem find_eq_of_first (l : List Entry) (n : QString) (i : Nat) (x : Entry)
    (hx : l[i]? = some x) (hn : x.name = n)
    (hfirst : ∀ j y, j < i → l[j]? = some y → y.name ≠ n) : find l n = i := by
  obtain ⟨hi, hxi⟩ := List.getElem?_eq_some_iff.1 hx
  unfold find
  rw [List.findIdx_eq hi]
  refine ⟨by simp [hxi, hn], fun j hji => ?_⟩
  have hj : j < l.length := Nat.lt_trans hji hi
  have := hfirst j l[j] hji (List.getElem?_eq_getElem hj)
  simpa using this

/-- The entry at the position `find` returns carries the name looked for. -/
theorem find_getElem?_name (l : List Entry) (n : QString) (x : Entry)
    (hx : l[find l n]? = some x) : x.name = n := by
  have := List.findIdx_of_getElem?_eq_some hx
  simpa using this

/-- No entry before the position `find` returns carries the name looked for. -/
theorem find_first (l : List Entry) (n : QString) (j : Nat) (y : Entry)
    (hj : j < find l n) (hy : l[j]? = some y) : y.name ≠ n := by
  obtain ⟨hjl, hyj⟩ := List.getElem?_eq_some_iff.1 hy
  have := List.not_of_lt_findIdx hj
  rw [hyj] at this
  simpa using this

/-! ## C5: `updateEntry` is an upsert by name -/

/-- C5: `updateEntry` is an upsert by name.  If the first entry named `e.name` is at index `i`,
the collection keeps its length, position `i` holds `e`, every other position is unchanged and
the only signal emitted is `dataChanged` for row `i`.  If no entry has that name, `e` is appended
and the only signals emitted are those of the insertion of the single row at the old length. -/
theorem updateEntry_upsert (e : Entry) (m : RulesPlaylists) :
    (∀ (i : Nat) (x : Entry), m.entryList[i]? = some x → x.name = e.name →
        (∀ j y, j < i → m.entryList[j]? = some y → y.name ≠ e.name) →
        (updateEntry e m).entryList.length = m.entryList.length ∧
        (updateEntry e m).entryList[i]? = some e ∧
        (∀ j, j ≠ i → (updateEntry e m).entryList[j]? = m.entryList[j]?) ∧
        (updateEntry e m).events = m.events ++ [Event.dataChanged (some i) (some i)]) ∧
    ((∀ x ∈ m.entryList, x.name ≠ e.name) →
        (updateEntry e m).entryList = m.entryList ++ [e] ∧
        (updateEntry e m).events = m.events ++
          [Event.beginInsertRows m.entryList.length m.entryList.length, Event.endInsertRows]) := by
  constructor
  · intro i x hx hn hfirst
    have hfind : find m.entryList e.name = i := find_eq_of_first _ _ i x hx hn hfirst
    obtain ⟨hi, -⟩ := List.getElem?_eq_some_iff.1 hx
    have hne : find m.entryList e.name ≠ m.entryList.length := by omega
    simp only [updateEntry, hfind, index]
    rw [if_pos (by omega)]
    refine ⟨by simp, by simp [hi], fun j hj => ?_, by simp [hi]⟩
    simp [List.getElem?_set, Ne.symm hj]
  · intro hno
    have hfind : find m.entryList e.name = m.entryList.length :=
      (find_eq_length_iff _ _).2 hno
    simp [updateEntry, hfind]

end RulesPlaylists

namespace RulesPlaylists

open QString

/-! ## C8, C9: `del` -/

/-- C8: `del(name)` has no effect when no entry is named `name`, and when such an entry exists
but its backing file exists and cannot be removed: the whole store (collection, emitted signals,
directory) is what it was. -/
theorem del_no_effect (env : Env) (name : QString) (m : RulesPlaylists) :
    ((∀ x ∈ m.entryList, x.name ≠ name) → del env name m = m) ∧
    ((∃ x ∈ m.entryList, x.name = name) →
      fileExists m.dir (name ++ constExtension) = true →
      env.canRemove (name ++ constExtension) = false → del env name m = m) := by
  constructor
  · intro hno
    have hfind : find m.entryList name = m.entryList.length := (find_eq_length_iff _ _).2 hno
    simp [del, hfind]
  · intro hex hfile hrm
    have hfind : find m.entryList name < m.entryList.length := (find_lt_length_iff _ _).2 hex
    have hd : dataDir false m.dir = m.dir := by cases h : m.dir <;> simp [dataDir]
    simp [del, Nat.ne_of_lt hfind, hd, hfile, hrm]

/-- C9: on a successful `del(name)` (the first entry named `name` is at index `i`, and its file is
absent or is removed) the collection is the old one with position `i` erased, and the signals
emitted are a stop exactly when `name` is the active entry, followed by the removal of row `i`. -/
theorem del_success (env : Env) (name : QString) (m : RulesPlaylists) (i : Nat) (x : Entry)
    (hx : m.entryList[i]? = some x) (hn : x.name = name)
    (hfirst : ∀ j y, j < i → m.entryList[j]? = some y → y.name ≠ name)
    (hfile : fileExists m.dir (name ++ constExtension) = false ∨
      env.canRemove (name ++ constExtension) = true) :
    (del env name m).entryList = m.entryList.eraseIdx i ∧
    (del env name m).entryList.length + 1 = m.entryList.length ∧
    (∀ j, j < i → (del env name m).entryList[j]? = m.entryList[j]?) ∧
    (∀ j, i ≤ j → (del env name m).entryList[j]? = m.entryList[j + 1]?) ∧
    (del env name m).events =
      m.events ++ (if m.currentEntry = name then [Event.stop] else []) ++
        [Event.beginRemoveRows i i, Event.endRemoveRows] := by
  have hfind : find m.entryList name = i := find_eq_of_first _ _ i x hx hn hfirst
  obtain ⟨hi, -⟩ := List.getElem?_eq_some_iff.1 hx
  have hd : dataDir false m.dir = m.dir := by cases h : m.dir <;> simp [dataDir]
  have hne : ¬ (i = m.entryList.length) := by omega
  have key : (del env name m).entryList = m.entryList.eraseIdx i ∧
      (del env name m).events =
        m.events ++ (if m.currentEntry = name then [Event.stop] else []) ++
          [Event.beginRemoveRows i i, Event.endRemoveRows] := by
    rcases hfile with hfile | hfile
    · simp [del, hfind, hne, hd, hfile]
    · by_cases hex : fileExists m.dir (name ++ constExtension) = true
      · simp [del, hfind, hne, hd, hfile, hex]
      · simp [del, hfind, hne, hd, hex]
  refine ⟨key.1, ?_, ?_, ?_, key.2⟩
  · rw [key.1, List.length_eraseIdx]
    simp [hi]; omega
  · intro j hj
    rw [key.1, List.getElem?_eraseIdx]
    simp [hj]
  · intro j hj
    rw [key.1, List.getElem?_eraseIdx]
    simp [Nat.not_lt.2 hj]

end RulesPlaylists

namespace RulesPlaylists

open QString

/-- C5 at a sample store: `favorites2` replaces the entry at index 1, and `favorites` is appended
to a store holding `baroque` only. -/
theorem updateEntry_upsert_witness :
    ((updateEntry favorites2 sampleStore).entryList.length = sampleStore.entryList.length ∧
      (updateEntry favorites2 sampleStore).entryList[1]? = some favorites2 ∧
      (∀ j, j ≠ 1 → (updateEntry favorites2 sampleStore).entryList[j]? =
        sampleStore.entryList[j]?) ∧
      (updateEntry favorites2 sampleStore).events =
        sampleStore.events ++ [Event.dataChanged (some 1) (some 1)]) ∧
    ((updateEntry favorites (updateEntry baroque (construct sampleEnv none))).entryList =
        (updateEntry baroque (construct sampleEnv none)).entryList ++ [favorites] ∧
      (updateEntry favorites (updateEntry baroque (construct sampleEnv none))).events =
        (updateEntry baroque (construct sampleEnv none)).events ++
          [Event.beginInsertRows 1 1, Event.endInsertRows]) :=
  ⟨(updateEntry_upsert favorites2 sampleStore).1 1 favorites (by decide) (by decide)
      (fun j y hj hy => by
        have h0 : j = 0 := by omega
        subst h0
        have hy2 : y = baroque := by
          have : sampleStore.entryList[0]? = some baroque := by decide
          rw [this] at hy
          exact (Option.some.inj hy).symm
        subst hy2
        decide),
    (updateEntry_upsert favorites (updateEntry baroque (construct sampleEnv none))).2
      (by decide)⟩

/-- C8 at a sample store: an absent name, and a present name whose file cannot be removed. -/
theorem del_no_effect_witness :
    del sampleEnv "Missing".toList sampleStore = sampleStore ∧
    del stuckEnv favorites.name sampleStore = sampleStore :=
  ⟨(del_no_effect sampleEnv "Missing".toList sampleStore).1 (by decide),
    (del_no_effect stuckEnv favorites.name sampleStore).2 (by decide) (by decide) (by decide)⟩

/-- C9 at a sample store: the active entry `favorites` is deleted from index 1. -/
theorem del_success_witness :
    (del sampleEnv favorites.name sampleStore).entryList = sampleStore.entryList.eraseIdx 1 ∧
    (del sampleEnv favorites.name sampleStore).entryList.length + 1 =
      sampleStore.entryList.length ∧
    (∀ j, j < 1 → (del sampleEnv favorites.name sampleStore).entryList[j]? =
      sampleStore.entryList[j]?) ∧
    (∀ j, 1 ≤ j → (del sampleEnv favorites.name sampleStore).entryList[j]? =
      sampleStore.entryList[j + 1]?) ∧
    (del sampleEnv favorites.name sampleStore).events =
      sampleStore.events ++ (if sampleStore.currentEntry = favorites.name then [Event.stop]
        else []) ++ [Event.beginRemoveRows 1 1, Event.endRemoveRows] :=
  del_success sampleEnv favorites.name sampleStore 1 favorites (by decide) (by decide)
    (fun j y hj hy => by
      have h0 : j = 0 := by omega
      subst h0
      have hy2 : y = baroque := by
        have : sampleStore.entryList[0]? = some baroque := by decide
        rw [this] at hy
        exact (Option.some.inj hy).symm
      subst hy2
      decide)
    (Or.inr (by decide))

end RulesPlaylists

namespace RulesPlaylists

open QString

/-! ## C7: outcome of `save` -/

theorem updateEntry_dir (e : Entry) (m : RulesPlaylists) : (updateEntry e m).dir = m.dir := by
  simp only [updateEntry]
  split <;> rfl

theorem updateEntry_currentEntry (e : Entry) (m : RulesPlaylists) :
    (updateEntry e m).currentEntry = m.currentEntry := by
  simp only [updateEntry]
  split <;> rfl

/-- The collection and the signals `updateEntry` produces do not depend on the directory. -/
theorem updateEntry_with_dir (e : Entry) (m : RulesPlaylists) (d : Dir) :
    updateEntry e { m with dir := d } = { updateEntry e m with dir := d } := by
  simp only [updateEntry]
  split <;> rfl

/-- The store after a successful local `save`. -/
theorem save_eq_of_open (env : Env) (e : Entry) (m : RulesPlaylists)
    (hlocal : env.isRemote = false) (hname : e.name ≠ [])
    (hopen : env.canOpenWrite (e.name ++ constExtension) = true) :
    save env e m = (true, { updateEntry e m with
      dir := writeFile (dataDir true m.dir) (e.name ++ constExtension) (saveText env e) }) := by
  have hne : e.name.isEmpty = false := by
    cases h : e.name with
    | nil => exact absurd h hname
    | cons c cs => rfl
  simp only [save, hne, hlocal, hopen, if_true, Bool.false_eq_true, if_false]
  rw [updateEntry_with_dir]

/-- C7: in local mode `save(e)` returns false exactly when `e.name` is empty or the target file
cannot be opened for writing.  When it returns false the collection and the emitted signals are
unchanged, and for an empty name the whole store, directory included, is untouched.  When it
returns true the collection and the signals are those `updateEntry(e)` produces. -/
theorem save_result (env : Env) (e : Entry) (m : RulesPlaylists) (hlocal : env.isRemote = false) :
    ((save env e m).1 = false ↔
      (e.name = [] ∨ env.canOpenWrite (e.name ++ constExtension) = false)) ∧
    ((save env e m).1 = false →
      (save env e m).2.entryList = m.entryList ∧ (save env e m).2.events = m.events) ∧
    (e.name = [] → (save env e m).2 = m) ∧
    ((save env e m).1 = true →
      (save env e m).2.entryList = (updateEntry e m).entryList ∧
      (save env e m).2.events = (updateEntry e m).events) := by
  by_cases hname : e.name = []
  · simp [save, hname]
  · have hne : e.name.isEmpty = false := by
      cases h : e.name with
      | nil => exact absurd h hname
      | cons c cs => rfl
    by_cases hopen : env.canOpenWrite (e.name ++ constExtension) = true
    · rw [save_eq_of_open env e m hlocal hname hopen]
      simp [hname, hopen]
    · have hopen2 : env.canOpenWrite (e.name ++ constExtension) = false := by
        simpa using hopen
      simp [save, hname, hne, hlocal, hopen2]

/-- C7 at a sample store: a successful local `save` of `favorites`. -/
theorem save_result_witness :
    (save sampleEnv favorites sampleStore).1 = true ∧
    (save sampleEnv favorites sampleStore).2.entryList =
      (updateEntry favorites sampleStore).entryList ∧
    (save sampleEnv favorites sampleStore).2.events =
      (updateEntry favorites sampleStore).events :=
  ⟨by decide, (save_result sampleEnv favorites sampleStore (by decide)).2.2.2 (by decide)⟩

end RulesPlaylists

namespace RulesPlaylists

open QString

/-! ## C6: `save` is idempotent -/

/-- Writing the same text to the same file twice leaves the file list of the first write. -/
theorem putFile_putFile (fName text : QString) (files : List (QString × QString)) :
    putFile fName text (putFile fName text files) = putFile fName text files := by
  induction files with
  | nil => simp [putFile]
  | cons f fs ih =>
    by_cases h : f.1 = fName
    · simp [putFile, h]
    · simp [putFile, h, ih]

/-- A written file holds the text written. -/
theorem find?_putFile (fName text : QString) (files : List (QString × QString)) :
    (putFile fName text files).find? (fun f => f.1 == fName) = some (fName, text) := by
  induction files with
  | nil => simp [putFile]
  | cons f fs ih =>
    by_cases h : f.1 = fName
    · simp [putFile, h]
    · simp [putFile, h, ih, List.find?_cons]

theorem readFile_writeFile (d : Dir) (fName text : QString) :
    readFile (writeFile (dataDir true d) fName text) fName = some text := by
  cases d with
  | none => simp [dataDir, writeFile, readFile, putFile]
  | some files => simp [dataDir, writeFile, readFile, find?_putFile]

theorem writeFile_writeFile (d : Dir) (fName text : QString) :
    writeFile (dataDir true (writeFile (dataDir true d) fName text)) fName text =
      writeFile (dataDir true d) fName text := by
  cases d with
  | none => simp [dataDir, writeFile, putFile]
  | some files => simp [dataDir, writeFile, putFile_putFile]

theorem updateEntry_entryList_of_found (e : Entry) (m : RulesPlaylists)
    (h : find m.entryList e.name ≠ m.entryList.length) :
    (updateEntry e m).entryList = m.entryList.set (find m.entryList e.name) e := by
  simp [updateEntry, h]

/-- After `updateEntry e` the first entry named `e.name` is `e` itself. -/
theorem updateEntry_find (e : Entry) (m : RulesPlaylists) :
    (updateEntry e m).entryList[find (updateEntry e m).entryList e.name]? = some e := by
  by_cases h : find m.entryList e.name = m.entryList.length
  · have hno := (find_eq_length_iff _ _).1 h
    have hl : (updateEntry e m).entryList = m.entryList ++ [e] := by simp [updateEntry, h]
    have hf : find (m.entryList ++ [e]) e.name = m.entryList.length := by
      unfold find
      rw [List.findIdx_append]
      have : List.findIdx (fun x => x.name == e.name) m.entryList = m.entryList.length := h
      simp [this, List.findIdx_cons]
    rw [hl, hf]
    simp
  · have hlt : find m.entryList e.name < m.entryList.length :=
      Nat.lt_of_le_of_ne (find_le_length _ _) h
    have hl : (updateEntry e m).entryList = m.entryList.set (find m.entryList e.name) e := by
      simp [updateEntry, h]
    have hf : find (m.entryList.set (find m.entryList e.name) e) e.name
        = find m.entryList e.name := by
      apply find_eq_of_first _ _ _ e
      · simp [List.getElem?_set, hlt]
      · rfl
      · intro j y hj hy
        have hne : find m.entryList e.name ≠ j := by omega
        rw [List.getElem?_set_ne hne] at hy
        exact find_first _ _ j y hj hy
    rw [hl, hf]
    simp [List.getElem?_set, hlt]

/-- A second `updateEntry` of the same entry leaves the collection of the first. -/
theorem updateEntry_updateEntry_entryList (e : Entry) (m : RulesPlaylists) :
    (updateEntry e (updateEntry e m)).entryList = (updateEntry e m).entryList := by
  have hfind := updateEntry_find e m
  obtain ⟨hlt, hget⟩ := List.getElem?_eq_some_iff.1 hfind
  have hne : find (updateEntry e m).entryList e.name ≠ (updateEntry e m).entryList.length :=
    Nat.ne_of_lt hlt
  rw [updateEntry_entryList_of_found e (updateEntry e m) hne]
  apply List.ext_getElem? 
  intro j
  by_cases hj : find (updateEntry e m).entryList e.name = j
  · subst hj
    simp [List.getElem?_set, hlt, hfind]
  · rw [List.getElem?_set_ne hj]

/-- The names held after `updateEntry`: unchanged on a replacement, one more on an insertion. -/
theorem updateEntry_names (e : Entry) (m : RulesPlaylists) :
    ((∃ x ∈ m.entryList, x.name = e.name) →
      (updateEntry e m).entryList.map Entry.name = m.entryList.map Entry.name) ∧
    ((∀ x ∈ m.entryList, x.name ≠ e.name) →
      (updateEntry e m).entryList.map Entry.name = m.entryList.map Entry.name ++ [e.name]) := by
  constructor
  · intro hex
    have hlt := (find_lt_length_iff _ _).2 hex
    have hl : (updateEntry e m).entryList = m.entryList.set (find m.entryList e.name) e := by
      simp [updateEntry, Nat.ne_of_lt hlt]
    rw [hl]
    apply List.ext_getElem?
    intro j
    by_cases hj : find m.entryList e.name = j
    · subst hj
      have hn := find_getElem?_name m.entryList e.name _ (List.getElem?_eq_getElem hlt)
      simp [List.getElem?_set, hlt, hn]
    · simp [List.getElem?_set_ne hj]
  · intro hno
    have h := (find_eq_length_iff _ _).2 hno
    simp [updateEntry, h]

/-- Names stay pairwise distinct under `updateEntry`. -/
theorem updateEntry_nodup (e : Entry) (m : RulesPlaylists)
    (h : (m.entryList.map Entry.name).Nodup) :
    ((updateEntry e m).entryList.map Entry.name).Nodup := by
  by_cases hex : ∃ x ∈ m.entryList, x.name = e.name
  · rw [(updateEntry_names e m).1 hex]
    exact h
  · have hno : ∀ x ∈ m.entryList, x.name ≠ e.name := by
      intro x hx hn
      exact hex ⟨x, hx, hn⟩
    rw [(updateEntry_names e m).2 hno]
    rw [List.nodup_append]
    refine ⟨h, by simp, ?_⟩
    intro a ha hb
    simp only [List.mem_singleton] at hb
    subst hb
    obtain ⟨x, hx, hxn⟩ := List.mem_map.1 ha
    exact hno x hx hxn

/-- The name of the entry handed to `updateEntry` is among the names held afterwards. -/
theorem updateEntry_mem_names (e : Entry) (m : RulesPlaylists) :
    e.name ∈ (updateEntry e m).entryList.map Entry.name := by
  have hfind := updateEntry_find e m
  obtain ⟨hlt, hget⟩ := List.getElem?_eq_some_iff.1 hfind
  have hmem : e ∈ (updateEntry e m).entryList := by
    have := List.getElem_mem hlt
    rwa [hget] at this
  exact List.mem_map.2 ⟨e, hmem, rfl⟩

/-- In a collection with pairwise distinct names, a name that occurs is carried by exactly one
entry. -/
theorem filter_name_length (l : List Entry) (n : QString) (hnd : (l.map Entry.name).Nodup)
    (hmem : n ∈ l.map Entry.name) :
    (l.filter (fun x => decide (x.name = n))).length = 1 := by
  induction l with
  | nil => simp at hmem
  | cons x xs ih =>
    rw [List.map_cons, List.nodup_cons] at hnd
    by_cases hx : x.name = n
    · have hnone : ∀ y ∈ xs, ¬ (y.name = n) := by
        intro y hy hyn
        exact hnd.1 (List.mem_map.2 ⟨y, hy, hyn.trans hx.symm⟩)
      have : xs.filter (fun x => decide (x.name = n)) = [] := by
        rw [List.filter_eq_nil_iff]
        intro y hy
        simpa using hnone y hy
      simp [List.filter_cons, hx, this]
    · have hmem2 : n ∈ xs.map Entry.name := by
        rw [List.map_cons, List.mem_cons] at hmem
        rcases hmem with h | h
        · exact absurd h.symm hx
        · exact h
      simp [List.filter_cons, hx, ih hnd.2 hmem2]

/-- C6: `save` is idempotent.  For a collection with pairwise distinct names and an entry with a
non-empty name whose file can be opened for writing in local mode, both calls succeed, the second
call leaves the directory (hence the file content, which is the serialised entry) and the
collection exactly as the first call left them, and exactly one entry is named `e.name`. -/
theorem save_idempotent (env : Env) (e : Entry) (m : RulesPlaylists)
    (hlocal : env.isRemote = false) (hname : e.name ≠ [])
    (hopen : env.canOpenWrite (e.name ++ constExtension) = true)
    (hdistinct : (m.entryList.map Entry.name).Nodup) :
    (save env e m).1 = true ∧ (save env e (save env e m).2).1 = true ∧
    (save env e (save env e m).2).2.dir = (save env e m).2.dir ∧
    readFile (save env e m).2.dir (e.name ++ constExtension) = some (saveText env e) ∧
    readFile (save env e (save env e m).2).2.dir (e.name ++ constExtension)
      = some (saveText env e) ∧
    (save env e (save env e m).2).2.entryList = (save env e m).2.entryList ∧
    ((save env e m).2.entryList.filter (fun x => decide (x.name = e.name))).length = 1 := by
  have h1 := save_eq_of_open env e m hlocal hname hopen
  have h2 := save_eq_of_open env e (save env e m).2 hlocal hname hopen
  rw [h2, h1]
  simp only [updateEntry_dir, writeFile_writeFile, readFile_writeFile, true_and]
  refine ⟨?_, ?_⟩
  · have := updateEntry_updateEntry_entryList e m
    simp only [updateEntry_with_dir]
    exact this
  · exact filter_name_length _ _ (updateEntry_nodup e m hdistinct) (updateEntry_mem_names e m)

/-- C6 at a sample store: `favorites2` saved twice. -/
theorem save_idempotent_witness :
    (save sampleEnv favorites2 sampleStore).1 = true ∧
    (save sampleEnv favorites2 (save sampleEnv favorites2 sampleStore).2).1 = true ∧
    (save sampleEnv favorites2 (save sampleEnv favorites2 sampleStore).2).2.dir =
      (save sampleEnv favorites2 sampleStore).2.dir ∧
    readFile (save sampleEnv favorites2 sampleStore).2.dir (favorites2.name ++ constExtension) =
      some (saveText sampleEnv favorites2) ∧
    readFile (save sampleEnv favorites2 (save sampleEnv favorites2 sampleStore).2).2.dir
      (favorites2.name ++ constExtension) = some (saveText sampleEnv favorites2) ∧
    (save sampleEnv favorites2 (save sampleEnv favorites2 sampleStore).2).2.entryList =
      (save sampleEnv favorites2 sampleStore).2.entryList ∧
    ((save sampleEnv favorites2 sampleStore).2.entryList.filter
      (fun x => decide (x.name = favorites2.name))).length = 1 :=
  save_idempotent sampleEnv favorites2 sampleStore (by decide) (by decide) (by decide)
    (by decide)

end RulesPlaylists

namespace RulesPlaylists

open QString

/-! ## C3: the text written by `save` -/

theorem unlines_append (a b : List QString) : unlines (a ++ b) = unlines a ++ unlines b := by
  simp [unlines]

theorem unlines_cons (l : QString) (ls : List QString) :
    unlines (l :: ls) = l ++ newline :: unlines ls := by
  simp [unlines]

/-- The inner loop of `save` appends the key/value lines of the rule to the stream. -/
theorem foldl_writeKeyValue (rule : Rule) (str : QString) :
    rule.foldl writeKeyValue str =
      str ++ unlines (rule.map (fun kv => kv.1 ++ [constKeyValSep] ++ kv.2)) := by
  induction rule generalizing str with
  | nil => simp [unlines]
  | cons kv r ih =>
    rw [List.foldl_cons, ih]
    simp [writeKeyValue, unlines_cons]

theorem writeRule_eq (str : QString) (rule : Rule) :
    writeRule str rule = str ++ unlines (specRuleLines rule) := by
  cases rule with
  | nil => simp [writeRule, specRuleLines, unlines]
  | cons kv r =>
    simp only [writeRule, specRuleLines, List.isEmpty_cons, Bool.not_false, if_true]
    rw [foldl_writeKeyValue]
    simp [unlines_cons]

/-- The rule loop of `save` appends the lines of every rule, in rule order. -/
theorem foldl_writeRule (rules : List Rule) (str : QString) :
    rules.foldl writeRule str = str ++ unlines (rules.flatMap specRuleLines) := by
  induction rules generalizing str with
  | nil => simp [unlines]
  | cons r rs ih =>
    rw [List.foldl_cons, ih, writeRule_eq]
    simp [unlines_append]

/-- The text built by `save` is the text of the lines the specification prescribes. -/
theorem saveText_eq_unlines (env : Env) (e : Entry) :
    saveText env e = unlines (specLines env e) := by
  simp only [saveText, specLines, foldl_writeRule, unlines_append]
  congr 1
  by_cases h1 : env.minTracks ≤ e.numTracks <;> by_cases h2 : e.numTracks ≤ env.maxTracks <;>
    by_cases h3 : e.ratingFrom = 0 <;> by_cases h4 : e.ratingTo = 0 <;>
    by_cases h5 : e.minDuration = 0 <;> by_cases h6 : e.maxDuration = 0 <;>
    simp [h1, h2, h3, h4, h5, h6, unlines]

/-- C3: the text `save` builds, and writes to the file of an entry with a non-empty name, is the
text of the lines of `specLines`, in that order: the track count exactly when it lies in the
window, the rating range exactly when its ends are not both zero, the duration range exactly when
its ends are not both zero, then for every non-empty rule the line `Rule` and its key/value lines.
For the entry `Favorites` (any track count) these lines end with `Rating:80-100`, `Rule`,
`Artist:Bach`. -/
theorem save_writes_specified_text (env : Env) (e : Entry) (m : RulesPlaylists) (n : Nat) :
    saveText env e = unlines (specLines env e) ∧
    (env.isRemote = false → e.name ≠ [] →
      env.canOpenWrite (e.name ++ constExtension) = true →
      readFile (save env e m).2.dir (e.name ++ constExtension)
        = some (unlines (specLines env e))) ∧
    saveText env { favorites with numTracks := n } =
      unlines ((if env.minTracks ≤ n ∧ n ≤ env.maxTracks then
          [constNumTracksKey ++ [constKeyValSep] ++ number n] else []) ++
        ["Rating:80-100".toList, "Rule".toList, "Artist:Bach".toList]) := by
  refine ⟨saveText_eq_unlines env e, ?_, ?_⟩
  · intro hlocal hname hopen
    rw [save_eq_of_open env e m hlocal hname hopen, ← saveText_eq_unlines]
    exact readFile_writeFile _ _ _
  · rw [saveText_eq_unlines]
    congr 1
    simp only [specLines, List.append_assoc]
    congr 1

/-- C3 at a sample store: the file written for `favorites` and its four lines. -/
theorem save_writes_specified_text_witness :
    readFile (save sampleEnv favorites sampleStore).2.dir (favorites.name ++ constExtension)
        = some (unlines (specLines sampleEnv favorites)) ∧
    unlines (specLines sampleEnv favorites) =
      unlines ["NumTracks:10".toList, "Rating:80-100".toList, "Rule".toList,
        "Artist:Bach".toList] :=
  ⟨(save_writes_specified_text sampleEnv favorites sampleStore 10).2.1 (by decide) (by decide)
    (by decide), by decide⟩

end RulesPlaylists

namespace RulesPlaylists

open QString

/-! ## Splitting into fields and lines -/

theorem splitFields_append_sep (sep : Char) (a b : QString) :
    (splitFields sep (a ++ sep :: b)).1 = (splitFields sep a).1 ∧
    (splitFields sep (a ++ sep :: b)).2 = (splitFields sep a).2 ++ split sep b := by
  induction a with
  | nil => simp [splitFields, split]
  | cons c cs ih =>
    by_cases h : c = sep
    · simp [splitFields, h, ih.1, ih.2]
    · simp [splitFields, h, ih.1, ih.2]

/-- Fields on both sides of a separator: the fields of the left part, then those of the right. -/
theorem split_append_sep (sep : Char) (a b : QString) :
    split sep (a ++ sep :: b) = split sep a ++ split sep b := by
  simp [split, (splitFields_append_sep sep a b).1, (splitFields_append_sep sep a b).2]

theorem splitFields_of_not_mem (sep : Char) (l : QString) (h : sep ∉ l) :
    splitFields sep l = (l, []) := by
  induction l with
  | nil => rfl
  | cons c cs ih =>
    have hc : c ≠ sep := fun hcs => h (by simp [hcs])
    have hcs : sep ∉ cs := fun hm => h (List.mem_cons_of_mem _ hm)
    simp [splitFields, hc, ih hcs]

/-- A string without the separator is a single field. -/
theorem split_of_not_mem (sep : Char) (l : QString) (h : sep ∉ l) : split sep l = [l] := by
  simp [split, splitFields_of_not_mem sep l h]

theorem splitSkipEmpty_append_sep (sep : Char) (a b : QString) :
    splitSkipEmpty sep (a ++ sep :: b) = splitSkipEmpty sep a ++ splitSkipEmpty sep b := by
  simp [splitSkipEmpty, split_append_sep]

theorem splitSkipEmpty_of_not_mem (sep : Char) (l : QString) (h : sep ∉ l) :
    splitSkipEmpty sep l = if l = [] then [] else [l] := by
  cases l with
  | nil => rfl
  | cons c cs => simp [splitSkipEmpty, split_of_not_mem sep _ h]

/-- The lines `loadLocal` sees in a text with the line `l` between the texts `a` and `b`. -/
theorem splitSkipEmpty_insert_line (a b l : QString) (hl : newline ∉ l) :
    splitSkipEmpty newline (a ++ [newline] ++ l ++ [newline] ++ b) =
      splitSkipEmpty newline a ++ (if l = [] then [] else [l]) ++ splitSkipEmpty newline b := by
  have e1 : a ++ [newline] ++ l ++ [newline] ++ b = a ++ newline :: (l ++ newline :: b) := by
    simp
  rw [e1, splitSkipEmpty_append_sep, splitSkipEmpty_append_sep,
    splitSkipEmpty_of_not_mem newline l hl, List.append_assoc]

/-! ## The branches of the line loop -/

theorem startsWith_iff (s p : QString) : startsWith s p = true ↔ ∃ t, s = p ++ t := by
  unfold startsWith
  rw [List.isPrefixOf_iff_prefix]
  constructor
  · rintro ⟨t, ht⟩
    exact ⟨t, ht.symm⟩
  · rintro ⟨t, ht⟩
    exact ⟨t, ht.symm⟩


/-- The `Rating:` branch of the line loop. -/
theorem parseLine_rating (st : Entry × Rule) (l t : QString)
    (ht : trimmed l = constRatingKey ++ constKeyValSep :: t) :
    parseLine st l =
      if 2 = (split constRangeSep t).length then
        ({ st.1 with ratingFrom := toUInt ((split constRangeSep t).getD 0 []),
                     ratingTo := toUInt ((split constRangeSep t).getD 1 []) }, st.2)
      else st := by
  have h1 : (List.isEmpty (constRatingKey ++ constKeyValSep :: t) ||
      startsWith (constRatingKey ++ constKeyValSep :: t) [Char.ofNat 35]) = false := rfl
  have h2 : constRatingKey ++ constKeyValSep :: t ≠ constRuleKey := by
    simp [constRatingKey, constRuleKey]
  have h3 : startsWith (constRatingKey ++ constKeyValSep :: t)
      (constRatingKey ++ [constKeyValSep]) = true := (startsWith_iff _ _).2 ⟨t, by simp⟩
  have h4 : mid (constRatingKey ++ constKeyValSep :: t) (constRatingKey.length + 1) = t := rfl
  simp only [parseLine, ht]
  rw [if_neg (by rw [h1]; simp), if_neg h2, if_pos h3, h4]

/-- The `Duration:` branch of the line loop. -/
theorem parseLine_duration (st : Entry × Rule) (l t : QString)
    (ht : trimmed l = constDurationKey ++ constKeyValSep :: t) :
    parseLine st l =
      if 2 = (split constRangeSep t).length then
        ({ st.1 with minDuration := toUInt ((split constRangeSep t).getD 0 []),
                     maxDuration := toUInt ((split constRangeSep t).getD 1 []) }, st.2)
      else st := by
  have h1 : (List.isEmpty (constDurationKey ++ constKeyValSep :: t) ||
      startsWith (constDurationKey ++ constKeyValSep :: t) [Char.ofNat 35]) = false := rfl
  have h2 : constDurationKey ++ constKeyValSep :: t ≠ constRuleKey := by
    simp [constDurationKey, constRuleKey]
  have h3 : startsWith (constDurationKey ++ constKeyValSep :: t)
      (constRatingKey ++ [constKeyValSep]) = false := rfl
  have h4 : startsWith (constDurationKey ++ constKeyValSep :: t)
      (constDurationKey ++ [constKeyValSep]) = true := (startsWith_iff _ _).2 ⟨t, by simp⟩
  have h5 : mid (constDurationKey ++ constKeyValSep :: t) (constDurationKey.length + 1) = t :=
    rfl
  simp only [parseLine, ht]
  rw [if_neg (by rw [h1]; simp), if_neg h2, if_neg (by rw [h3]; simp), if_pos h4, h5]

end RulesPlaylists

namespace RulesPlaylists

open QString

/-! ## Reading in text mode -/

theorem readAll_append (a b : QString) : readAll (a ++ b) = readAll a ++ readAll b := by
  simp [readAll]

theorem readAll_newline : readAll [newline] = [newline] := by decide

theorem not_mem_readAll (c : Char) (l : QString) (h : c ∉ l) : c ∉ readAll l :=
  fun hm => h (List.mem_filter.1 hm).1

/-- The text read for a line between two texts, each followed by a line feed. -/
theorem readAll_insert_line (a b l : QString) :
    readAll (a ++ [newline] ++ l ++ [newline] ++ b) =
      readAll a ++ [newline] ++ readAll l ++ [newline] ++ readAll b := by
  simp only [readAll_append, readAll_newline]

/-- A line without line feed that leaves the state of the line loop as it was can be inserted
after a line break, at the start or at the end of a text without changing the entry parsed. -/
theorem parseFile_insert_noop (env : Env) (rf a b l : QString) (hl : newline ∉ l)
    (hstep : ∀ st, parseLine st l = st) :
    parseFile env rf (a ++ [newline] ++ l ++ [newline] ++ b) =
      parseFile env rf (a ++ [newline] ++ b) ∧
    parseFile env rf (l ++ [newline] ++ b) = parseFile env rf b ∧
    parseFile env rf (a ++ [newline] ++ l) = parseFile env rf a := by
  have hline : ∀ st : Entry × Rule,
      (if l = [] then [] else [l]).foldl parseLine st = st := by
    intro st
    split
    · rfl
    · simp [hstep]
  refine ⟨?_, ?_, ?_⟩
  · have e2 : a ++ [newline] ++ b = a ++ newline :: b := by simp
    simp only [parseFile]
    rw [splitSkipEmpty_insert_line a b l hl, e2, splitSkipEmpty_append_sep,
      List.foldl_append, List.foldl_append, hline, List.foldl_append]
  · have e1 : l ++ [newline] ++ b = l ++ newline :: b := by simp
    simp only [parseFile]
    rw [e1, splitSkipEmpty_append_sep, splitSkipEmpty_of_not_mem newline l hl,
      List.foldl_append, hline]
  · have e1 : a ++ [newline] ++ l = a ++ newline :: l := by simp
    simp only [parseFile]
    rw [e1, splitSkipEmpty_append_sep, splitSkipEmpty_of_not_mem newline l hl,
      List.foldl_append, hline]

/-- The same for the stored text of a file, read in text mode: the line is judged as read. -/
theorem parseFile_readAll_insert_noop (env : Env) (rf a b l : QString) (hl : newline ∉ l)
    (hstep : ∀ st, parseLine st (readAll l) = st) :
    parseFile env rf (readAll (a ++ [newline] ++ l ++ [newline] ++ b)) =
      parseFile env rf (readAll (a ++ [newline] ++ b)) ∧
    parseFile env rf (readAll (l ++ [newline] ++ b)) = parseFile env rf (readAll b) ∧
    parseFile env rf (readAll (a ++ [newline] ++ l)) = parseFile env rf (readAll a) := by
  have h := parseFile_insert_noop env rf (readAll a) (readAll b) (readAll l)
    (not_mem_readAll _ _ hl) hstep
  simp only [readAll_append, readAll_newline]
  exact h

end RulesPlaylists

namespace RulesPlaylists

open QString

/-! ## C4: malformed range lines -/

theorem flushRule_ranges (st : Entry × Rule) :
    (flushRule st).ratingFrom = st.1.ratingFrom ∧ (flushRule st).ratingTo = st.1.ratingTo ∧
    (flushRule st).minDuration = st.1.minDuration ∧
    (flushRule st).maxDuration = st.1.maxDuration ∧
    (flushRule st).name = st.1.name ∧ (flushRule st).numTracks = st.1.numTracks := by
  unfold flushRule
  split <;> simp

end RulesPlaylists

namespace RulesPlaylists

open QString

/-! ## Decimal rendering and reading -/

theorem numberAux_eq (n : Nat) : ∀ fuel acc, n < fuel → numberAux fuel n acc = number n ++ acc := by
  induction n using Nat.strong_induction_on with
  | _ n ih =>
    intro fuel acc hf
    obtain ⟨f, rfl⟩ : ∃ f, fuel = f + 1 := ⟨fuel - 1, by omega⟩
    by_cases h : n < 10
    · simp [numberAux, number, h]
    · have hdiv : n / 10 < n := by omega
      have h1 : numberAux (f + 1) n acc = numberAux f (n / 10) (digitChar (n % 10) :: acc) := by
        simp [numberAux, h]
      have h2 : number n = numberAux n (n / 10) [digitChar (n % 10)] := by
        simp [number, numberAux, h]
      rw [h1, h2, ih (n / 10) hdiv f _ (by omega), ih (n / 10) hdiv n _ hdiv]
      simp

theorem number_of_lt (n : Nat) (h : n < 10) : number n = [digitChar n] := by
  simp [number, numberAux, h]

theorem number_of_ge (n : Nat) (h : ¬ n < 10) :
    number n = number (n / 10) ++ [digitChar (n % 10)] := by
  have h2 : number n = numberAux n (n / 10) [digitChar (n % 10)] := by
    simp [number, numberAux, h]
  rw [h2, numberAux_eq (n / 10) n _ (by omega)]

theorem digitChar_toNat (d : Nat) (h : d < 10) : (digitChar d).toNat = 48 + d := by
  interval_cases d <;> rfl

theorem isDigit_digitChar (d : Nat) (h : d < 10) : isDigit (digitChar d) = true := by
  interval_cases d <;> rfl

/-- The decimal rendering is a non-empty string of digits whose value is the number. -/
theorem number_spec (n : Nat) :
    number n ≠ [] ∧ (∀ c ∈ number n, isDigit c = true) ∧ digitsValue (number n) = n := by
  induction n using Nat.strong_induction_on with
  | _ n ih =>
    by_cases h : n < 10
    · rw [number_of_lt n h]
      refine ⟨by simp, ?_, ?_⟩
      · intro c hc
        simp only [List.mem_singleton] at hc
        rw [hc]
        exact isDigit_digitChar n h
      · simp [digitsValue, digitChar_toNat n h]
    · rw [number_of_ge n h]
      obtain ⟨-, hd, hv⟩ := ih (n / 10) (by omega)
      have hm : n % 10 < 10 := Nat.mod_lt _ (by omega)
      refine ⟨by simp, ?_, ?_⟩
      · intro c hc
        rcases List.mem_append.1 hc with hc | hc
        · exact hd c hc
        · simp only [List.mem_singleton] at hc
          rw [hc]
          exact isDigit_digitChar _ hm
      · have : digitsValue (number (n / 10) ++ [digitChar (n % 10)]) =
            10 * digitsValue (number (n / 10)) + ((digitChar (n % 10)).toNat - 48) := by
          simp [digitsValue, List.foldl_append]
        rw [this, hv, digitChar_toNat _ hm]
        omega

/-- Reading back a rendered number below 2^32 gives the number. -/
theorem toUInt_number (n : Nat) (h : n < 2 ^ 32) : toUInt (number n) = n := by
  obtain ⟨hne, hd, hv⟩ := number_spec n
  have hall : (number n).all isDigit = true := by
    rw [List.all_eq_true]
    exact hd
  have hemp : (number n).isEmpty = false := by
    cases hn : number n with
    | nil => exact absurd hn hne
    | cons c cs => rfl
  have h2 : n < 4294967296 := by simpa using h
  simp [toUInt, hall, hemp, hv]
  omega

theorem not_mem_number (c : Char) (hc : isDigit c = false) (n : Nat) : c ∉ number n := by
  intro hm
  have := (number_spec n).2.1 c hm
  rw [hc] at this
  exact Bool.noConfusion this

theorem isSpace_of_isDigit (c : Char) (h : isDigit c = true) : isSpace c = false := by
  simp only [isDigit, Bool.and_eq_true, decide_eq_true_eq] at h
  simp only [isSpace]
  have h1 := h.1
  have h2 := h.2
  simp only [Bool.or_eq_false_iff, beq_eq_false_iff_ne, Bool.and_eq_false_iff, decide_eq_false_iff_not]
  omega

/-! ## Trimming -/

/-- A string that neither starts nor ends with whitespace is its own trimmed form. -/
theorem trimmed_eq_self (c d : Char) (s t : QString) (hc : isSpace c = false)
    (hd : isSpace d = false) (hs : c :: s = t ++ [d]) : trimmed (c :: s) = c :: s := by
  have h1 : (c :: s).dropWhile isSpace = c :: s := by
    simp [List.dropWhile_cons, hc]
  unfold trimmed
  rw [h1, hs]
  exact List.rdropWhile_concat_neg _ _ _ (by simp [hd])

end RulesPlaylists

namespace RulesPlaylists

open QString

/-- A string whose first and last characters are not whitespace, followed by a string that does
not end in whitespace, is its own trimmed form. -/
theorem trimmed_append (p v : QString) (hp : p.head?.map isSpace = some false)
    (hpl : p.getLast?.map isSpace = some false) (hv : endsInSpace v = false) :
    trimmed (p ++ v) = p ++ v := by
  cases p with
  | nil => simp at hp
  | cons c p' =>
    have hc : isSpace c = false := by simpa using hp
    have hne : c :: p' ++ v ≠ [] := by simp
    have hlast : (c :: p' ++ v).getLast? = some ((c :: p' ++ v).getLast hne) :=
      List.getLast?_eq_getLast _ hne
    have hd : isSpace ((c :: p' ++ v).getLast hne) = false := by
      rw [List.getLast?_append] at hlast
      cases hvl : v.getLast? with
      | none =>
        rw [hvl] at hlast
        have h2 : (c :: p').getLast? = some ((c :: p' ++ v).getLast hne) := by simpa using hlast
        rw [h2] at hpl
        simpa using hpl
      | some d =>
        rw [hvl] at hlast
        have : d = (c :: p' ++ v).getLast hne := by simpa using hlast
        rw [← this]
        simpa [endsInSpace, hvl] using hv
    have hs : c :: (p' ++ v) = (c :: p' ++ v).dropLast ++ [(c :: p' ++ v).getLast hne] :=
      (List.dropLast_append_getLast hne).symm
    exact trimmed_eq_self c _ (p' ++ v) _ hc hd hs

/-- The `Rule` branch of the line loop: the rule in progress is closed. -/
theorem parseLine_rule (st : Entry × Rule) (l : QString) (ht : trimmed l = constRuleKey) :
    parseLine st l = (flushRule st, []) := by
  have h1 : (List.isEmpty constRuleKey || startsWith constRuleKey [Char.ofNat 35]) = false := rfl
  simp only [parseLine, ht]
  rw [if_neg (by rw [h1]; simp), if_pos trivial]
  unfold flushRule
  cases hr : st.2 with
  | nil =>
    have : st = (st.1, []) := by rw [← hr]
    simp
    exact this
  | cons kv r => simp

/-- The key/value branch of the line loop, for each of the keys the loader reads. -/
theorem parseLine_keyValue (st : Entry × Rule) (k v : QString) (hk : k ∈ keys)
    (hv : endsInSpace v = false) :
    parseLine st (k ++ constKeyValSep :: v) = (st.1, st.2.insert k v) := by
  have htrim : trimmed (k ++ constKeyValSep :: v) = k ++ constKeyValSep :: v := by
    have hkk : (k ++ [constKeyValSep]).head?.map isSpace = some false ∧
        (k ++ [constKeyValSep]).getLast?.map isSpace = some false := by
      revert k
      decide
    have := trimmed_append (k ++ [constKeyValSep]) v hkk.1 hkk.2 hv
    simpa using this
  simp only [keys, List.mem_cons, List.mem_singleton, List.not_mem_nil, or_false] at hk
  rcases hk with rfl | rfl | rfl | rfl | rfl | rfl | rfl | rfl | rfl | rfl <;>
  · simp only [parseLine, htrim]
    simp [keys, startsWith, List.isPrefixOf, constArtistKey, constSimilarArtistsKey,
      constAlbumArtistKey, constDateKey, constExactKey, constAlbumKey, constTitleKey,
      constGenreKey, constFileKey, constExcludeKey, constRuleKey, constRatingKey,
      constDurationKey, constKeyValSep, mid]

/-- A `NumTracks:` line falls through every branch of the line loop. -/
theorem parseLine_numTracks (st : Entry × Rule) (n : Nat) :
    parseLine st (constNumTracksKey ++ [constKeyValSep] ++ number n) = st := by
  obtain ⟨hne, hd, -⟩ := number_spec n
  have hv : endsInSpace (number n) = false := by
    unfold endsInSpace
    cases hl : (number n).getLast? with
    | none => rfl
    | some c => exact isSpace_of_isDigit c (hd c (List.mem_of_getLast?_eq_some hl))
  have htrim := trimmed_append (constNumTracksKey ++ [constKeyValSep]) (number n) (by decide)
    (by decide) hv
  simp only [parseLine, htrim]
  simp [keys, startsWith, List.isPrefixOf, constArtistKey, constSimilarArtistsKey,
    constAlbumArtistKey, constDateKey, constExactKey, constAlbumKey, constTitleKey,
    constGenreKey, constFileKey, constExcludeKey, constRuleKey, constRatingKey,
    constDurationKey, constKeyValSep, constNumTracksKey]

end RulesPlaylists

namespace RulesPlaylists

open QString

/-! ## Reading back what `save` wrote -/

theorem Rule.insert_of_not_mem (k v : QString) (r : Rule) (h : k ∉ r.map Prod.fst) :
    Rule.insert k v r = r ++ [(k, v)] := by
  induction r with
  | nil => rfl
  | cons kv r ih =>
    obtain ⟨k', v'⟩ := kv
    have hne : k' ≠ k := fun hk => h (by simp [hk])
    have hr : k ∉ r.map Prod.fst := fun hm => h (by simp [hm])
    simp [Rule.insert, hne, ih hr]

/-- Inserting the pairs of a mapping one by one rebuilds the mapping. -/
theorem foldl_insert (r cur : Rule) (h : ((cur ++ r).map Prod.fst).Nodup) :
    r.foldl (fun c kv => Rule.insert kv.1 kv.2 c) cur = cur ++ r := by
  induction r generalizing cur with
  | nil => simp
  | cons kv r ih =>
    have hnot : kv.1 ∉ cur.map Prod.fst := by
      intro hm
      rw [List.map_append, List.nodup_append] at h
      exact h.2.2 hm (by simp)
    rw [List.foldl_cons, Rule.insert_of_not_mem _ _ _ hnot, ih]
    · simp
    · simpa using h

/-- The key/value lines of a rule are read into the rule in progress, pair by pair. -/
theorem foldl_parseLine_keyValues (r : Rule) (st : Entry × Rule)
    (h : ∀ kv ∈ r, kv.1 ∈ keys ∧ newline ∉ kv.2 ∧ endsInSpace kv.2 = false) :
    (r.map (fun kv => kv.1 ++ [constKeyValSep] ++ kv.2)).foldl parseLine st =
      (st.1, r.foldl (fun c kv => Rule.insert kv.1 kv.2 c) st.2) := by
  induction r generalizing st with
  | nil => simp
  | cons kv r ih =>
    have hkv := h kv (by simp)
    have hline : kv.1 ++ [constKeyValSep] ++ kv.2 = kv.1 ++ constKeyValSep :: kv.2 := by simp
    rw [List.map_cons, List.foldl_cons, List.foldl_cons, hline,
      parseLine_keyValue st kv.1 kv.2 hkv.1 hkv.2.2, ih _ (fun x hx => h x (by simp [hx]))]

/-- The lines of one rule, read from any state of the line loop: an empty rule has no lines, a
non-empty one closes the rule in progress and becomes the rule in progress. -/
theorem foldl_parseLine_rule (r : Rule) (st : Entry × Rule) (h : Rule.Storable r) :
    (specRuleLines r).foldl parseLine st = if r = [] then st else (flushRule st, r) := by
  by_cases hr : r = []
  · simp [hr, specRuleLines]
  · rw [if_neg hr]
    simp only [specRuleLines, if_neg hr, List.foldl_cons]
    have hrule : trimmed constRuleKey = constRuleKey := by decide
    rw [parseLine_rule st constRuleKey hrule,
      foldl_parseLine_keyValues r _
        (fun kv hkv => ⟨(h.2 kv hkv).1, (h.2 kv hkv).2.1, (h.2 kv hkv).2.2.1⟩),
      foldl_insert r [] (by simpa using h.1)]
    simp

/-- The lines of a list of rules, read from any state of the line loop and followed by the
closing of the rule in progress: the non-empty rules are appended in order. -/
theorem flushRule_foldl_rules (rs : List Rule) (st : Entry × Rule)
    (h : ∀ r ∈ rs, Rule.Storable r) :
    flushRule ((rs.flatMap specRuleLines).foldl parseLine st) =
      { flushRule st with
        rules := (flushRule st).rules ++ rs.filter (fun r => !r.isEmpty) } := by
  induction rs generalizing st with
  | nil => simp
  | cons r rs ih =>
    have hr := h r (by simp)
    have hrs : ∀ x ∈ rs, Rule.Storable x := fun x hx => h x (by simp [hx])
    rw [List.flatMap_cons, List.foldl_append, foldl_parseLine_rule r st hr]
    by_cases hnil : r = []
    · rw [if_pos hnil, ih st hrs]
      simp [hnil]
    · rw [if_neg hnil, ih _ hrs]
      have hne : r.isEmpty = false := by
        cases r with
        | nil => exact absurd rfl hnil
        | cons kv r' => rfl
      have hf : flushRule (flushRule st, r) =
          { flushRule st with rules := (flushRule st).rules ++ [r] } := by
        simp [flushRule, hne]
      rw [hf]
      simp [List.filter_cons, hne]

end RulesPlaylists

namespace RulesPlaylists

open QString

theorem endsInSpace_append_number (s : QString) (n : Nat) :
    endsInSpace (s ++ number n) = false := by
  obtain ⟨hne, hd, -⟩ := number_spec n
  unfold endsInSpace
  cases hl : (s ++ number n).getLast? with
  | none => rfl
  | some c =>
    have hc : c ∈ number n := by
      rw [List.getLast?_append] at hl
      cases hn : (number n).getLast? with
      | none =>
        rw [List.getLast?_eq_none_iff] at hn
        exact absurd hn hne
      | some d =>
        rw [hn] at hl
        have : d = c := by simpa using hl
        rw [← this]
        exact List.mem_of_getLast?_eq_some hn
    exact isSpace_of_isDigit c (hd c hc)

/-- The two fields of a rendered range. -/
theorem split_range (a b : Nat) :
    split constRangeSep (number a ++ constRangeSep :: number b) = [number a, number b] := by
  have hsep : isDigit constRangeSep = false := by decide
  rw [split_append_sep, split_of_not_mem _ _ (not_mem_number _ hsep a),
    split_of_not_mem _ _ (not_mem_number _ hsep b)]
  rfl

/-- A rendered `Rating:` line is read back into the rating range. -/
theorem parseLine_ratingLine (st : Entry × Rule) (a b : Nat) (ha : a < 2 ^ 32)
    (hb : b < 2 ^ 32) :
    parseLine st (constRatingKey ++ [constKeyValSep] ++ number a ++ [constRangeSep] ++ number b)
      = ({ st.1 with ratingFrom := a, ratingTo := b }, st.2) := by
  have hform : constRatingKey ++ [constKeyValSep] ++ number a ++ [constRangeSep] ++ number b =
      (constRatingKey ++ [constKeyValSep]) ++ (number a ++ constRangeSep :: number b) := by simp
  have hv : endsInSpace (number a ++ constRangeSep :: number b) = false := by
    have := endsInSpace_append_number (number a ++ [constRangeSep]) b
    simpa using this
  have htrim := trimmed_append (constRatingKey ++ [constKeyValSep])
    (number a ++ constRangeSep :: number b) (by decide) (by decide) hv
  rw [hform, parseLine_rating st _ (number a ++ constRangeSep :: number b)
    (by rw [htrim]; simp), split_range]
  simp [toUInt_number a ha, toUInt_number b hb]

/-- A rendered `Duration:` line is read back into the duration range. -/
theorem parseLine_durationLine (st : Entry × Rule) (a b : Nat) (ha : a < 2 ^ 32)
    (hb : b < 2 ^ 32) :
    parseLine st
      (constDurationKey ++ [constKeyValSep] ++ number a ++ [constRangeSep] ++ number b)
      = ({ st.1 with minDuration := a, maxDuration := b }, st.2) := by
  have hform : constDurationKey ++ [constKeyValSep] ++ number a ++ [constRangeSep] ++ number b =
      (constDurationKey ++ [constKeyValSep]) ++ (number a ++ constRangeSep :: number b) := by
    simp
  have hv : endsInSpace (number a ++ constRangeSep :: number b) = false := by
    have := endsInSpace_append_number (number a ++ [constRangeSep]) b
    simpa using this
  have htrim := trimmed_append (constDurationKey ++ [constKeyValSep])
    (number a ++ constRangeSep :: number b) (by decide) (by decide) hv
  rw [hform, parseLine_duration st _ (number a ++ constRangeSep :: number b)
    (by rw [htrim]; simp), split_range]
  simp [toUInt_number a ha, toUInt_number b hb]

/-- A text made of non-empty lines without line feeds splits back into these lines. -/
theorem splitSkipEmpty_unlines (ls : List QString) (h : ∀ l ∈ ls, l ≠ [] ∧ newline ∉ l) :
    splitSkipEmpty newline (unlines ls) = ls := by
  induction ls with
  | nil => rfl
  | cons l ls ih =>
    obtain ⟨hne, hnl⟩ := h l (by simp)
    rw [unlines_cons, splitSkipEmpty_append_sep, splitSkipEmpty_of_not_mem _ _ hnl, if_neg hne,
      ih (fun x hx => h x (by simp [hx]))]
    rfl

/-- Every line `save` writes for a storable entry is non-empty and free of line feeds. -/
theorem specLines_wellformed (env : Env) (e : Entry) (h : ∀ r ∈ e.rules, Rule.Storable r) :
    ∀ l ∈ specLines env e, l ≠ [] ∧ newline ∉ l := by
  have hnl : isDigit newline = false := by decide
  have hnum : ∀ n, newline ∉ number n := fun n => not_mem_number _ hnl n
  intro l hl
  simp only [specLines, List.mem_append] at hl
  rcases hl with ((hl | hl) | hl) | hl
  · split at hl
    · simp only [List.mem_singleton] at hl
      subst hl
      refine ⟨by simp [constNumTracksKey], ?_⟩
      simp only [List.mem_append, not_or]
      exact ⟨⟨by decide, by decide⟩, hnum _⟩
    · simp at hl
  · split at hl
    · simp only [List.mem_singleton] at hl
      subst hl
      refine ⟨by simp [constRatingKey], ?_⟩
      simp only [List.mem_append, not_or]
      exact ⟨⟨⟨⟨by decide, by decide⟩, hnum _⟩, by decide⟩, hnum _⟩
    · simp at hl
  · split at hl
    · simp only [List.mem_singleton] at hl
      subst hl
      refine ⟨by simp [constDurationKey], ?_⟩
      simp only [List.mem_append, not_or]
      exact ⟨⟨⟨⟨by decide, by decide⟩, hnum _⟩, by decide⟩, hnum _⟩
    · simp at hl
  · rw [List.mem_flatMap] at hl
    obtain ⟨r, hr, hlr⟩ := hl
    have hst := h r hr
    unfold specRuleLines at hlr
    split at hlr
    · simp at hlr
    · rw [List.mem_cons] at hlr
      rcases hlr with hlr | hlr
      · subst hlr
        exact ⟨by decide, by decide⟩
      · obtain ⟨kv, hkv, rfl⟩ := List.mem_map.1 hlr
        obtain ⟨hk, hv, -⟩ := hst.2 kv hkv
        refine ⟨by simp, ?_⟩
        have hkeys : ∀ k ∈ keys, newline ∉ k := by decide
        simp only [List.mem_append, not_or]
        exact ⟨⟨hkeys _ hk, by decide⟩, hv⟩

/-- No line `save` writes for a storable entry holds a carriage return. -/
theorem specLines_no_carriageReturn (env : Env) (e : Entry)
    (h : ∀ r ∈ e.rules, Rule.Storable r) : ∀ l ∈ specLines env e, carriageReturn ∉ l := by
  have hcr : isDigit carriageReturn = false := by decide
  have hnum : ∀ n, carriageReturn ∉ number n := fun n => not_mem_number _ hcr n
  intro l hl
  simp only [specLines, List.mem_append] at hl
  rcases hl with ((hl | hl) | hl) | hl
  · split at hl
    · simp only [List.mem_singleton] at hl
      subst hl
      simp only [List.mem_append, not_or]
      exact ⟨⟨by decide, by decide⟩, hnum _⟩
    · simp at hl
  · split at hl
    · simp only [List.mem_singleton] at hl
      subst hl
      simp only [List.mem_append, not_or]
      exact ⟨⟨⟨⟨by decide, by decide⟩, hnum _⟩, by decide⟩, hnum _⟩
    · simp at hl
  · split at hl
    · simp only [List.mem_singleton] at hl
      subst hl
      simp only [List.mem_append, not_or]
      exact ⟨⟨⟨⟨by decide, by decide⟩, hnum _⟩, by decide⟩, hnum _⟩
    · simp at hl
  · rw [List.mem_flatMap] at hl
    obtain ⟨r, hr, hlr⟩ := hl
    have hst := h r hr
    unfold specRuleLines at hlr
    split at hlr
    · simp at hlr
    · rw [List.mem_cons] at hlr
      rcases hlr with hlr | hlr
      · subst hlr
        decide
      · obtain ⟨kv, hkv, rfl⟩ := List.mem_map.1 hlr
        obtain ⟨hk, -, -, hv⟩ := hst.2 kv hkv
        have hkeys : ∀ k ∈ keys, carriageReturn ∉ k := by decide
        simp only [List.mem_append, not_or]
        exact ⟨⟨hkeys _ hk, by decide⟩, hv⟩

/-- A text without carriage returns is read as it is stored. -/
theorem readAll_of_not_mem (t : QString) (h : carriageReturn ∉ t) : readAll t = t := by
  unfold readAll
  rw [List.filter_eq_self]
  intro c hc
  have : c ≠ carriageReturn := fun heq => h (heq ▸ hc)
  simpa using this

/-- The text `save` writes for a storable entry is read back as it was written. -/
theorem readAll_saveText (env : Env) (e : Entry) (h : ∀ r ∈ e.rules, Rule.Storable r) :
    readAll (saveText env e) = saveText env e := by
  apply readAll_of_not_mem
  rw [saveText_eq_unlines]
  have hlines := specLines_no_carriageReturn env e h
  generalize specLines env e = ls at hlines
  induction ls with
  | nil => simp [unlines]
  | cons l ls ih =>
    rw [unlines_cons]
    simp only [List.mem_append, List.mem_cons, not_or]
    exact ⟨hlines l (by simp), by decide, ih (fun x hx => hlines x (by simp [hx]))⟩

end RulesPlaylists

namespace RulesPlaylists

open QString

/-- The header lines `save` writes (track count, rating range, duration range), read from the
fresh state of the line loop: the ranges are set, nothing else changes. -/
theorem foldl_parseLine_header (env : Env) (e e0 : Entry)
    (hr1 : e.ratingFrom < 2 ^ 32) (hr2 : e.ratingTo < 2 ^ 32)
    (hd1 : e.minDuration < 2 ^ 32) (hd2 : e.maxDuration < 2 ^ 32)
    (h0 : e0.ratingFrom = 0 ∧ e0.ratingTo = 0 ∧ e0.minDuration = 0 ∧ e0.maxDuration = 0) :
    ((if env.minTracks ≤ e.numTracks ∧ e.numTracks ≤ env.maxTracks then
        [constNumTracksKey ++ [constKeyValSep] ++ number e.numTracks] else []) ++
      (if ¬ (e.ratingFrom = 0 ∧ e.ratingTo = 0) then
        [constRatingKey ++ [constKeyValSep] ++ number e.ratingFrom ++ [constRangeSep] ++
          number e.ratingTo] else []) ++
      (if ¬ (e.minDuration = 0 ∧ e.maxDuration = 0) then
        [constDurationKey ++ [constKeyValSep] ++ number e.minDuration ++ [constRangeSep] ++
          number e.maxDuration] else [])).foldl parseLine (e0, []) =
      ({ e0 with ratingFrom := e.ratingFrom, ratingTo := e.ratingTo,
                 minDuration := e.minDuration, maxDuration := e.maxDuration }, []) := by
  obtain ⟨h01, h02, h03, h04⟩ := h0
  have step1 : ∀ st : Entry × Rule,
      (if env.minTracks ≤ e.numTracks ∧ e.numTracks ≤ env.maxTracks then
        [constNumTracksKey ++ [constKeyValSep] ++ number e.numTracks] else []).foldl parseLine st
        = st := by
    intro st
    split
    · rw [List.foldl_cons, List.foldl_nil, parseLine_numTracks]
    · rfl
  have step2 : ∀ st : Entry × Rule, st.1.ratingFrom = 0 → st.1.ratingTo = 0 →
      (if ¬ (e.ratingFrom = 0 ∧ e.ratingTo = 0) then
        [constRatingKey ++ [constKeyValSep] ++ number e.ratingFrom ++ [constRangeSep] ++
          number e.ratingTo] else []).foldl parseLine st
        = ({ st.1 with ratingFrom := e.ratingFrom, ratingTo := e.ratingTo }, st.2) := by
    intro st h1 h2
    split
    · rw [List.foldl_cons, List.foldl_nil, parseLine_ratingLine st _ _ hr1 hr2]
    · rename_i hz
      have hz2 : e.ratingFrom = 0 ∧ e.ratingTo = 0 := by
        by_contra hc
        exact hz hc
      obtain ⟨e1, r1⟩ := st
      cases e1
      simp_all
  have step3 : ∀ st : Entry × Rule, st.1.minDuration = 0 → st.1.maxDuration = 0 →
      (if ¬ (e.minDuration = 0 ∧ e.maxDuration = 0) then
        [constDurationKey ++ [constKeyValSep] ++ number e.minDuration ++ [constRangeSep] ++
          number e.maxDuration] else []).foldl parseLine st
        = ({ st.1 with minDuration := e.minDuration, maxDuration := e.maxDuration }, st.2) := by
    intro st h1 h2
    split
    · rw [List.foldl_cons, List.foldl_nil, parseLine_durationLine st _ _ hd1 hd2]
    · rename_i hz
      have hz2 : e.minDuration = 0 ∧ e.maxDuration = 0 := by
        by_contra hc
        exact hz hc
      obtain ⟨e1, r1⟩ := st
      cases e1
      simp_all
  rw [List.foldl_append, List.foldl_append, step1, step2 _ h01 h02, step3 _ h03 h04]

/-- The entry `loadLocal` reads from the file `save` wrote for a storable entry: the entry itself
with its empty rules dropped and the default track count. -/
theorem parseFile_saveText (env : Env) (e : Entry) (h : ∀ r ∈ e.rules, Rule.Storable r)
    (hr1 : e.ratingFrom < 2 ^ 32) (hr2 : e.ratingTo < 2 ^ 32)
    (hd1 : e.minDuration < 2 ^ 32) (hd2 : e.maxDuration < 2 ^ 32) :
    parseFile env (e.name ++ constExtension) (saveText env e) =
      { e with rules := e.rules.filter (fun r => !r.isEmpty),
               numTracks := env.defaultNumTracks } := by
  have hname : left (e.name ++ constExtension)
      ((e.name ++ constExtension).length - constExtension.length) = e.name := by
    simp [left]
  simp only [parseFile, hname]
  rw [saveText_eq_unlines, splitSkipEmpty_unlines _ (specLines_wellformed env e h)]
  unfold specLines
  rw [List.foldl_append, foldl_parseLine_header env e _ hr1 hr2 hd1 hd2
    (by simp [Entry.fresh]), flushRule_foldl_rules _ _ h]
  simp [flushRule, Entry.fresh]

end RulesPlaylists

namespace RulesPlaylists

open QString

/-! ## C1: save followed by load -/

theorem mem_putFile (fName text : QString) (files : List (QString × QString)) :
    (fName, text) ∈ putFile fName text files := by
  induction files with
  | nil => simp [putFile]
  | cons f fs ih =>
    by_cases h : f.1 = fName
    · simp [putFile, h]
    · simp [putFile, h, ih]

/-- The collection `loadLocal` builds from an existing directory. -/
theorem loadLocal_entryList (env : Env) (m : RulesPlaylists) (files : List (QString × QString))
    (h : m.dir = some files) :
    (loadLocal env m).entryList = (rulesFiles env files).filterMap
      (fun f => if env.canOpenRead f.1 then some (parseFile env f.1 (readAll f.2)) else none) := by
  simp [loadLocal, h, dataDir]

/-- The collection `loadLocal` builds when the directory is absent. -/
theorem loadLocal_entryList_none (env : Env) (m : RulesPlaylists) (h : m.dir = none) :
    (loadLocal env m).entryList = [] := by
  simp [loadLocal, h, dataDir]

/-- After a successful local `save`, `loadLocal` (with the file listed and readable) holds the
entry read from the text just written. -/
theorem mem_loadLocal_of_save (env : Env) (e : Entry) (m : RulesPlaylists)
    (hlocal : env.isRemote = false) (hname : e.name ≠ [])
    (hopen : env.canOpenWrite (e.name ++ constExtension) = true)
    (hlisted : env.entryListed (e.name ++ constExtension) = true)
    (hread : env.canOpenRead (e.name ++ constExtension) = true) :
    parseFile env (e.name ++ constExtension) (readAll (saveText env e)) ∈
      (loadLocal env (save env e m).2).entryList := by
  rw [save_eq_of_open env e m hlocal hname hopen]
  obtain ⟨files, hfiles⟩ : ∃ files, writeFile (dataDir true m.dir) (e.name ++ constExtension)
      (saveText env e) = some (putFile (e.name ++ constExtension) (saveText env e) files) := by
    cases hd : m.dir with
    | none => exact ⟨[], by simp [dataDir, writeFile]⟩
    | some fs => exact ⟨fs, by simp [dataDir, writeFile]⟩
  rw [loadLocal_entryList env _ _ hfiles, List.mem_filterMap]
  refine ⟨(e.name ++ constExtension, saveText env e), ?_, by simp [hread]⟩
  unfold rulesFiles
  rw [List.mem_filter]
  exact ⟨mem_putFile _ _ _, by simpa using hlisted⟩

/-- C1 (amended): round trip of save and load.  For every entry whose rules have pairwise
distinct keys among the ten keys the loader reads, with values free of line feeds and of carriage
returns and not ending in whitespace, and whose rating and duration bounds are below 2^32: when
`save` succeeds in local mode and `loadLocal` then reads the same directory in text mode (the
written file being listed by the scan and readable), the collection holds an entry named `e.name`
whose rules are the non-empty rules of `e` in the same order with the same key/value pairs, and
whose rating and duration bounds are those of `e`. -/
theorem save_loadLocal_roundtrip (env : Env) (e : Entry) (m : RulesPlaylists)
    (hlocal : env.isRemote = false) (hsave : (save env e m).1 = true)
    (hlisted : env.entryListed (e.name ++ constExtension) = true)
    (hread : env.canOpenRead (e.name ++ constExtension) = true)
    (hrules : ∀ r ∈ e.rules, Rule.Storable r)
    (hr1 : e.ratingFrom < 2 ^ 32) (hr2 : e.ratingTo < 2 ^ 32)
    (hd1 : e.minDuration < 2 ^ 32) (hd2 : e.maxDuration < 2 ^ 32) :
    ∃ e' ∈ (loadLocal env (save env e m).2).entryList,
      e'.name = e.name ∧ e'.rules = e.rules.filter (fun r => !r.isEmpty) ∧
      e'.ratingFrom = e.ratingFrom ∧ e'.ratingTo = e.ratingTo ∧
      e'.minDuration = e.minDuration ∧ e'.maxDuration = e.maxDuration := by
  have hres := (save_result env e m hlocal).1
  have hok : ¬ (e.name = [] ∨ env.canOpenWrite (e.name ++ constExtension) = false) := by
    intro hbad
    rw [hres.2 hbad] at hsave
    exact Bool.noConfusion hsave
  have hname : e.name ≠ [] := fun h => hok (Or.inl h)
  have hopen : env.canOpenWrite (e.name ++ constExtension) = true := by
    cases hc : env.canOpenWrite (e.name ++ constExtension) with
    | true => rfl
    | false => exact absurd (Or.inr hc) hok
  refine ⟨_, mem_loadLocal_of_save env e m hlocal hname hopen hlisted hread, ?_⟩
  rw [readAll_saveText env e hrules, parseFile_saveText env e hrules hr1 hr2 hd1 hd2]
  exact ⟨rfl, rfl, rfl, rfl, rfl, rfl⟩

/-- C1 (amended) at the entry `baroque`, saved to an absent directory and loaded again. -/
theorem save_loadLocal_roundtrip_witness :
    ∃ e' ∈ (loadLocal sampleEnv (save sampleEnv baroque (construct sampleEnv none)).2).entryList,
      e'.name = baroque.name ∧ e'.rules = baroque.rules.filter (fun r => !r.isEmpty) ∧
      e'.ratingFrom = baroque.ratingFrom ∧ e'.ratingTo = baroque.ratingTo ∧
      e'.minDuration = baroque.minDuration ∧ e'.maxDuration = baroque.maxDuration :=
  save_loadLocal_roundtrip sampleEnv baroque (construct sampleEnv none) (by decide) (by decide)
    (by decide) (by decide) (by simp only [Rule.Storable, Rule.WF]; decide) (by decide)
    (by decide) (by decide) (by decide)

/-- C1 as stated fails: the entry `spaced` (name `Favorites`, one rule with `Artist` set to
`Bach` followed by a space) is saved successfully, and the collection loaded from the directory is
the single entry whose `Artist` value is `Bach` without the space; no loaded entry named
`Favorites` carries the saved value. -/
theorem save_loadLocal_roundtrip_counterexample :
    spaced.name ≠ [] ∧ (∃ r ∈ spaced.rules, r ≠ []) ∧
    (save sampleEnv spaced (construct sampleEnv none)).1 = true ∧
    (loadLocal sampleEnv (save sampleEnv spaced (construct sampleEnv none)).2).entryList =
      [{ spaced with rules := [[(constArtistKey, "Bach".toList)]] }] ∧
    ¬ ∃ e' ∈ (loadLocal sampleEnv (save sampleEnv spaced (construct sampleEnv none)).2).entryList,
        e'.name = spaced.name ∧
        e'.rules.map (Rule.value constArtistKey) =
          (spaced.rules.filter (fun r => !r.isEmpty)).map (Rule.value constArtistKey) := by
  decide

end RulesPlaylists

namespace RulesPlaylists

open QString

/-- C2 (the code at the failing input): `save` writes the lines `Composer:Bach` and
`Comment:live` for rules on these keys, but the line loop of `loadLocal` drops both lines, so the
rule never reaches the loaded entry; the sibling line `Artist:Bach` is read. -/
theorem composer_comment_lines_dropped :
    saveText sampleEnv composerEntry =
      unlines ["NumTracks:10".toList, "Rating:80-100".toList, "Rule".toList,
        "Composer:Bach".toList] ∧
    parseLine (Entry.fresh sampleEnv [], []) "Composer:Bach".toList =
      (Entry.fresh sampleEnv [], []) ∧
    parseLine (Entry.fresh sampleEnv [], []) "Comment:live".toList =
      (Entry.fresh sampleEnv [], []) ∧
    (parseFile sampleEnv "Favorites.rules".toList (saveText sampleEnv composerEntry)).rules = [] ∧
    (parseFile sampleEnv "Favorites.rules".toList (saveText sampleEnv commentEntry)).rules = [] ∧
    (parseFile sampleEnv "Favorites.rules".toList (saveText sampleEnv favorites)).rules =
      [[(constArtistKey, "Bach".toList)]] := by
  decide

end RulesPlaylists

namespace RulesPlaylists

open QString

/-! ## C10: names held by the collection -/

theorem parseLine_name (st : Entry × Rule) (l : QString) :
    (parseLine st l).1.name = st.1.name := by
  simp only [parseLine]
  split_ifs <;> rfl

theorem foldl_parseLine_name (ls : List QString) (st : Entry × Rule) :
    (ls.foldl parseLine st).1.name = st.1.name := by
  induction ls generalizing st with
  | nil => rfl
  | cons l ls ih => rw [List.foldl_cons, ih, parseLine_name]

/-- The name of a loaded entry is the file name without its last characters, as many as the
extension has. -/
theorem parseFile_name (env : Env) (rf text : QString) :
    (parseFile env rf text).name = left rf (rf.length - constExtension.length) := by
  simp only [parseFile]
  rw [(flushRule_ranges _).2.2.2.2.1, foldl_parseLine_name]

/-- The names `loadLocal` produces from a file list. -/
theorem map_name_filterMap (env : Env) (files : List (QString × QString)) :
    (files.filterMap
      (fun f => if env.canOpenRead f.1 then some (parseFile env f.1 (readAll f.2)) else none)).map
        Entry.name =
    ((files.filter (fun f => env.canOpenRead f.1)).map Prod.fst).map
      (fun n => left n (n.length - constExtension.length)) := by
  induction files with
  | nil => rfl
  | cons f fs ih =>
    by_cases h : env.canOpenRead f.1 = true
    · simp [List.filterMap_cons, h, parseFile_name, ih]
    · simp [List.filterMap_cons, h, ih]

/-- A file name that ends in the extension is its base name followed by the extension. -/
theorem eq_left_append_of_suffix (n : QString) (h : constExtension.isSuffixOf n = true) :
    n = left n (n.length - constExtension.length) ++ constExtension := by
  rw [List.isSuffixOf_iff_suffix] at h
  obtain ⟨t, ht⟩ := h
  rw [← ht]
  simp [left]

/-- Names loaded from a directory with pairwise distinct file names, whose listed files end in
the extension, are pairwise distinct. -/
theorem loadLocal_nodup (env : Env) (m : RulesPlaylists) (h : Dir.WF m.dir)
    (hl : Dir.ListedHaveExtension env m.dir) :
    ((loadLocal env m).entryList.map Entry.name).Nodup := by
  cases hd : m.dir with
  | none => simp [loadLocal_entryList_none env m hd]
  | some files =>
    rw [hd] at h hl
    rw [loadLocal_entryList env m files hd, map_name_filterMap]
    have hsub : ((rulesFiles env files).filter (fun f => env.canOpenRead f.1)).Sublist files :=
      List.Sublist.trans (List.filter_sublist _) (List.filter_sublist _)
    have hnd : (((rulesFiles env files).filter (fun f => env.canOpenRead f.1)).map
        Prod.fst).Nodup := List.Nodup.sublist (List.Sublist.map _ hsub) h
    refine List.Nodup.map_on ?_ hnd
    intro x hx y hy hxy
    have hsuf : ∀ z ∈ ((rulesFiles env files).filter (fun f => env.canOpenRead f.1)).map
        Prod.fst, constExtension.isSuffixOf z = true := by
      intro z hz
      obtain ⟨f, hf, rfl⟩ := List.mem_map.1 hz
      have hfr := List.mem_filter.1 (List.mem_filter.1 hf).1
      exact hl f hfr.1 (by simpa using hfr.2)
    rw [eq_left_append_of_suffix x (hsuf x hx), eq_left_append_of_suffix y (hsuf y hy), hxy]

/-- Names loaded from a directory without a file named exactly `.rules`, whose listed files end
in the extension, are non-empty. -/
theorem loadLocal_names_ne_nil (env : Env) (m : RulesPlaylists)
    (h : fileExists m.dir constExtension = false) (hl : Dir.ListedHaveExtension env m.dir) :
    ∀ x ∈ (loadLocal env m).entryList, x.name ≠ [] := by
  intro x hx
  cases hd : m.dir with
  | none => simp [loadLocal_entryList_none env m hd] at hx
  | some files =>
    rw [hd] at h hl
    rw [loadLocal_entryList env m files hd, List.mem_filterMap] at hx
    obtain ⟨f, hf, hfx⟩ := hx
    have hfiles : f ∈ files := (List.mem_filter.1 hf).1
    have hsuf : constExtension.isSuffixOf f.1 = true :=
      hl f hfiles (by simpa using (List.mem_filter.1 hf).2)
    have hne : f.1 ≠ constExtension := by
      intro heq
      have : fileExists (some files) constExtension = true := by
        simp only [fileExists, List.any_eq_true]
        exact ⟨f, hfiles, by simp [heq]⟩
      rw [h] at this
      exact Bool.noConfusion this
    have hx2 : x = parseFile env f.1 (readAll f.2) := by
      by_cases hc : env.canOpenRead f.1 = true
      · simp [hc] at hfx
        exact hfx.symm
      · simp [hc] at hfx
    rw [hx2, parseFile_name]
    intro hnil
    have := eq_left_append_of_suffix f.1 hsuf
    rw [hnil] at this
    exact hne (by simpa using this)

theorem mem_putFile_cases (fName text : QString) (files : List (QString × QString))
    (f : QString × QString) (hf : f ∈ putFile fName text files) :
    f ∈ files ∨ f = (fName, text) := by
  induction files with
  | nil =>
    right
    simpa [putFile] using hf
  | cons g gs ih =>
    by_cases h : g.1 = fName
    · simp only [putFile, h, if_true, List.mem_cons] at hf
      rcases hf with hf | hf
      · exact Or.inr hf
      · exact Or.inl (List.mem_cons_of_mem _ hf)
    · simp only [putFile, h, if_false, List.mem_cons] at hf
      rcases hf with hf | hf
      · exact Or.inl (by simp [hf])
      · rcases ih hf with h2 | h2
        · exact Or.inl (List.mem_cons_of_mem _ h2)
        · exact Or.inr h2

/-- Writing the file of an entry keeps every listed file name ending in the extension. -/
theorem writeFile_listed (env : Env) (d : Dir) (name text : QString)
    (h : Dir.ListedHaveExtension env d) :
    Dir.ListedHaveExtension env (writeFile (dataDir true d) (name ++ constExtension) text) := by
  have hnew : constExtension.isSuffixOf (name ++ constExtension) = true := by
    simp [List.isSuffixOf_iff_suffix]
  cases d with
  | none =>
    simp only [dataDir, writeFile, if_true, putFile, Dir.ListedHaveExtension]
    intro f hf _
    simp only [List.mem_singleton] at hf
    rw [hf]
    exact hnew
  | some files =>
    simp only [dataDir, writeFile, Dir.ListedHaveExtension]
    intro f hf hlist
    rcases mem_putFile_cases _ _ _ f hf with hf | hf
    · exact h f hf hlist
    · rw [hf]
      exact hnew

theorem dataDir_listed (env : Env) (b : Bool) (d : Dir) (h : Dir.ListedHaveExtension env d) :
    Dir.ListedHaveExtension env (dataDir b d) := by
  cases d with
  | none => cases b <;> simp [dataDir, Dir.ListedHaveExtension]
  | some files => exact h

theorem removeFile_listed (env : Env) (d : Dir) (fName : QString)
    (h : Dir.ListedHaveExtension env d) : Dir.ListedHaveExtension env (removeFile d fName) := by
  cases d with
  | none => exact h
  | some files =>
    simp only [removeFile, Dir.ListedHaveExtension]
    intro f hf hlist
    exact h f (List.mem_filter.1 hf).1 hlist

theorem map_fst_putFile (fName text : QString) (files : List (QString × QString)) :
    (putFile fName text files).map Prod.fst =
      if fName ∈ files.map Prod.fst then files.map Prod.fst
      else files.map Prod.fst ++ [fName] := by
  induction files with
  | nil => simp [putFile]
  | cons f fs ih =>
    by_cases h : f.1 = fName
    · simp [putFile, h]
    · have h2 : ¬ fName = f.1 := fun hh => h hh.symm
      by_cases hm : fName ∈ fs.map Prod.fst
      · rw [if_pos hm] at ih
        have hm2 : ∃ a, (fName, a) ∈ fs := by simpa using hm
        simp [putFile, h, h2, ih, hm2]
      · rw [if_neg hm] at ih
        have hm2 : ¬ ∃ a, (fName, a) ∈ fs := by simpa using hm
        simp only [putFile, h, if_false, List.map_cons, ih, List.mem_cons, h2, hm, or_self,
          List.cons_append]

/-- Writing a file keeps the file names of the directory pairwise distinct. -/
theorem writeFile_WF (d : Dir) (fName text : QString) (h : Dir.WF d) :
    Dir.WF (writeFile (dataDir true d) fName text) := by
  cases d with
  | none => simp [dataDir, writeFile, putFile, Dir.WF]
  | some files =>
    simp only [dataDir, writeFile, Dir.WF, map_fst_putFile]
    simp only [Dir.WF] at h
    split
    · exact h
    · rename_i hm
      rw [List.nodup_append]
      refine ⟨h, by simp, ?_⟩
      intro a ha hb
      simp only [List.mem_singleton] at hb
      subst hb
      exact hm ha

theorem dataDir_WF (b : Bool) (d : Dir) (h : Dir.WF d) : Dir.WF (dataDir b d) := by
  cases d with
  | none => cases b <;> simp [dataDir, Dir.WF]
  | some files => exact h

theorem removeFile_WF (d : Dir) (fName : QString) (h : Dir.WF d) :
    Dir.WF (removeFile d fName) := by
  cases d with
  | none => exact h
  | some files =>
    simp only [removeFile, Dir.WF]
    exact List.Nodup.sublist (List.Sublist.map _ (List.filter_sublist _)) h

theorem fileExists_dataDir (b : Bool) (d : Dir) (fName : QString) :
    fileExists (dataDir b d) fName = fileExists d fName := by
  cases d with
  | none => cases b <;> simp [dataDir, fileExists]
  | some files => rfl

theorem fileExists_writeFile (d : Dir) (fName text g : QString) (hg : g ≠ fName)
    (h : fileExists d g = false) : fileExists (writeFile (dataDir true d) fName text) g = false := by
  have hput : ∀ files : List (QString × QString),
      (putFile fName text files).map Prod.fst =
        if fName ∈ files.map Prod.fst then files.map Prod.fst
        else files.map Prod.fst ++ [fName] := map_fst_putFile fName text
  have key : ∀ files : List (QString × QString), g ∉ files.map Prod.fst →
      g ∉ (putFile fName text files).map Prod.fst := by
    intro files hfiles
    rw [hput]
    split
    · exact hfiles
    · simp only [List.mem_append, List.mem_singleton, not_or]
      exact ⟨hfiles, hg⟩
  have conv : ∀ files : List (QString × QString),
      fileExists (some files) g = false ↔ g ∉ files.map Prod.fst := by
    intro files
    simp only [fileExists]
    rw [Bool.eq_false_iff, Ne, List.any_eq_true, List.mem_map]
    constructor
    · rintro hh ⟨f, hf, hfg⟩
      exact hh ⟨f, hf, by simp [hfg]⟩
    · rintro hh ⟨f, hf, hfg⟩
      exact hh ⟨f, hf, by simpa using hfg⟩
  cases d with
  | none =>
    simp only [dataDir, writeFile, if_true]
    exact (conv _).2 (key [] (by simp))
  | some files =>
    simp only [dataDir, writeFile]
    exact (conv _).2 (key files ((conv files).1 h))

theorem fileExists_removeFile (d : Dir) (fName g : QString) (h : fileExists d g = false) :
    fileExists (removeFile d fName) g = false := by
  cases d with
  | none => rfl
  | some files =>
    simp only [removeFile, fileExists] at h ⊢
    rw [Bool.eq_false_iff] at h ⊢
    intro hh
    apply h
    rw [List.any_eq_true] at hh ⊢
    obtain ⟨x, hx, hxg⟩ := hh
    exact ⟨x, (List.mem_filter.1 hx).1, hxg⟩

/-- The store after `save` in local mode: untouched, or with the directory created, or updated
with the entry and the file written. -/
theorem save_cases (env : Env) (e : Entry) (m : RulesPlaylists) (hlocal : env.isRemote = false) :
    (save env e m).2 = m ∨ (save env e m).2 = { m with dir := dataDir true m.dir } ∨
    (e.name ≠ [] ∧ (save env e m).2 = { updateEntry e m with
      dir := writeFile (dataDir true m.dir) (e.name ++ constExtension) (saveText env e) }) := by
  by_cases hname : e.name = []
  · left
    simp [save, hname]
  · by_cases hopen : env.canOpenWrite (e.name ++ constExtension) = true
    · right; right
      exact ⟨hname, by rw [save_eq_of_open env e m hlocal hname hopen]⟩
    · right; left
      have hne : e.name.isEmpty = false := by
        cases h : e.name with
        | nil => exact absurd h hname
        | cons c cs => rfl
      simp [save, hne, hlocal, hopen]

/-- The store after `del`: untouched, or with one position erased and the directory kept or
relieved of one file. -/
theorem del_cases (env : Env) (name : QString) (m : RulesPlaylists) :
    del env name m = m ∨
    ((del env name m).entryList = m.entryList.eraseIdx (find m.entryList name) ∧
      ((del env name m).dir = m.dir ∨
        (del env name m).dir = removeFile m.dir (name ++ constExtension))) := by
  simp only [del]
  split
  · left; rfl
  · split
    · right; exact ⟨rfl, Or.inl rfl⟩
    · split
      · right; exact ⟨rfl, Or.inr rfl⟩
      · left; rfl

theorem mem_updateEntry (e x : Entry) (m : RulesPlaylists)
    (hx : x ∈ (updateEntry e m).entryList) : x ∈ m.entryList ∨ x = e := by
  by_cases h : find m.entryList e.name = m.entryList.length
  · have hl : (updateEntry e m).entryList = m.entryList ++ [e] := by simp [updateEntry, h]
    rw [hl] at hx
    simpa using hx
  · rw [updateEntry_entryList_of_found e m h] at hx
    exact List.mem_or_eq_of_mem_set hx

end RulesPlaylists

namespace RulesPlaylists

open QString

theorem loadLocal_dir (env : Env) (m : RulesPlaylists) : (loadLocal env m).dir = m.dir := rfl

/-- Distinct names, distinct file names and the extension of every listed file are kept by every
operation of the store. -/
theorem reachable_nodup (env : Env) (d : Dir) (allowed : Entry → Prop)
    (hlocal : env.isRemote = false) (hwf : Dir.WF d) (hl : Dir.ListedHaveExtension env d)
    (m : RulesPlaylists) (hm : Reachable env d allowed m) :
    (m.entryList.map Entry.name).Nodup ∧ Dir.WF m.dir ∧ Dir.ListedHaveExtension env m.dir := by
  induction hm with
  | construct =>
    exact ⟨loadLocal_nodup env _ hwf hl, hwf, hl⟩
  | loadLocal m _ ih =>
    exact ⟨loadLocal_nodup env m ih.2.1 ih.2.2, ih.2.1, ih.2.2⟩
  | save m e _ ih =>
    rcases save_cases env e m hlocal with h | h | ⟨-, h⟩
    · rw [h]; exact ih
    · rw [h]; exact ⟨ih.1, dataDir_WF _ _ ih.2.1, dataDir_listed _ _ _ ih.2.2⟩
    · rw [h]
      exact ⟨updateEntry_nodup e m ih.1, writeFile_WF _ _ _ ih.2.1,
        writeFile_listed _ _ _ _ ih.2.2⟩
  | updateEntry m e _ _ ih =>
    exact ⟨updateEntry_nodup e m ih.1, by rw [updateEntry_dir]; exact ih.2.1,
      by rw [updateEntry_dir]; exact ih.2.2⟩
  | del m name _ ih =>
    rcases del_cases env name m with h | ⟨h1, h2⟩
    · rw [h]; exact ih
    · refine ⟨?_, ?_, ?_⟩
      · rw [h1]
        exact List.Nodup.sublist (List.Sublist.map _ (List.eraseIdx_sublist _ _)) ih.1
      · rcases h2 with h2 | h2
        · rw [h2]; exact ih.2.1
        · rw [h2]; exact removeFile_WF _ _ ih.2.1
      · rcases h2 with h2 | h2
        · rw [h2]; exact ih.2.2
        · rw [h2]; exact removeFile_listed _ _ _ ih.2.2

/-- Non-empty names, and the absence of a file named exactly `.rules`, are kept by every
operation of the store as long as `updateEntry` is given entries with a non-empty name. -/
theorem reachable_names_ne_nil (env : Env) (d : Dir) (hlocal : env.isRemote = false)
    (hwf : Dir.WF d) (hl : Dir.ListedHaveExtension env d)
    (hext : fileExists d constExtension = false) (m : RulesPlaylists)
    (hm : Reachable env d (fun e => e.name ≠ []) m) :
    (∀ x ∈ m.entryList, x.name ≠ []) ∧ fileExists m.dir constExtension = false := by
  induction hm with
  | construct =>
    exact ⟨loadLocal_names_ne_nil env _ hext hl, hext⟩
  | loadLocal m hm ih =>
    exact ⟨loadLocal_names_ne_nil env m ih.2 (reachable_nodup env d _ hlocal hwf hl m hm).2.2,
      ih.2⟩
  | save m e _ ih =>
    rcases save_cases env e m hlocal with h | h | ⟨hname, h⟩
    · rw [h]; exact ih
    · rw [h]; exact ⟨ih.1, by rw [fileExists_dataDir]; exact ih.2⟩
    · rw [h]
      refine ⟨?_, ?_⟩
      · intro x hx
        rcases mem_updateEntry e x m hx with hx | hx
        · exact ih.1 x hx
        · rw [hx]; exact hname
      · apply fileExists_writeFile _ _ _ _ _ ih.2
        intro heq
        have hlen := congrArg List.length heq
        simp only [List.length_append] at hlen
        have : e.name.length = 0 := by omega
        exact hname (List.length_eq_zero.1 this)
  | updateEntry m e he _ ih =>
    refine ⟨?_, by rw [updateEntry_dir]; exact ih.2⟩
    intro x hx
    rcases mem_updateEntry e x m hx with hx | hx
    · exact ih.1 x hx
    · rw [hx]; exact he
  | del m name _ ih =>
    rcases del_cases env name m with h | ⟨h1, h2⟩
    · rw [h]; exact ih
    · refine ⟨?_, ?_⟩
      · intro x hx
        rw [h1] at hx
        exact ih.1 x (List.mem_of_mem_eraseIdx hx)
      · rcases h2 with h2 | h2
        · rw [h2]; exact ih.2
        · rw [h2]; exact fileExists_removeFile _ _ _ ih.2

/-- C10 (amended): in local mode, over a directory with pairwise distinct file names in which
every file the scan lists has a name ending in `.rules`, every state reachable from construction
by `loadLocal`, `save`, `updateEntry` and `del` has pairwise distinct names; and when moreover the
directory holds no file named exactly `.rules` and `updateEntry` is only given entries with a
non-empty name, every entry of every reachable state has a non-empty name. -/
theorem names_invariant (env : Env) (d : Dir) (hlocal : env.isRemote = false)
    (hwf : Dir.WF d) (hl : Dir.ListedHaveExtension env d) :
    (∀ m, Reachable env d (fun _ => True) m → (m.entryList.map Entry.name).Nodup) ∧
    (fileExists d constExtension = false →
      ∀ m, Reachable env d (fun e => e.name ≠ []) m → ∀ x ∈ m.entryList, x.name ≠ []) :=
  ⟨fun m hm => (reachable_nodup env d _ hlocal hwf hl m hm).1,
    fun hext m hm => (reachable_names_ne_nil env d hlocal hwf hl hext m hm).1⟩

/-- C10 (amended) at a state reached by construction, a `save` and an `updateEntry`. -/
theorem names_invariant_witness :
    ((updateEntry favorites2
        (save sampleEnv baroque (construct sampleEnv sampleStore.dir)).2).entryList.map
      Entry.name).Nodup ∧
    ∀ x ∈ (updateEntry favorites2
        (save sampleEnv baroque (construct sampleEnv sampleStore.dir)).2).entryList, x.name ≠ [] :=
  ⟨(names_invariant sampleEnv sampleStore.dir (by decide)
      (by simp only [Dir.WF, sampleStore]; decide)
      (by simp only [Dir.ListedHaveExtension, sampleStore]; decide)).1 _
      (Reachable.updateEntry _ favorites2 trivial
        (Reachable.save _ baroque Reachable.construct)),
    (names_invariant sampleEnv sampleStore.dir (by decide)
      (by simp only [Dir.WF, sampleStore]; decide)
      (by simp only [Dir.ListedHaveExtension, sampleStore]; decide)).2 (by decide) _
      (Reachable.updateEntry _ favorites2 (by decide)
        (Reachable.save _ baroque Reachable.construct))⟩

/-- C10 as stated fails: `updateEntry` applied to a default entry (whose name is empty) on the
freshly constructed store yields a reachable state whose single entry has an empty name. -/
theorem names_invariant_counterexample :
    Reachable sampleEnv none (fun _ => True)
      (updateEntry (Entry.fresh sampleEnv []) (construct sampleEnv none)) ∧
    (updateEntry (Entry.fresh sampleEnv []) (construct sampleEnv none)).entryList =
      [Entry.fresh sampleEnv []] ∧
    ¬ ∀ x ∈ (updateEntry (Entry.fresh sampleEnv []) (construct sampleEnv none)).entryList,
      x.name ≠ [] :=
  ⟨Reachable.updateEntry _ _ trivial Reachable.construct, by decide, by decide⟩

end RulesPlaylists

namespace RulesPlaylists

open QString

/-! ## Field lines in general -/

/-- A line whose trimmed form is one of the ten keys of the loader's list, a colon and a value
sets that key of the rule in progress to the value (the whole remainder after the first colon). -/
theorem parseLine_key_line (st : Entry × Rule) (l k v : QString) (hk : k ∈ keys)
    (ht : trimmed l = k ++ constKeyValSep :: v) :
    parseLine st l = (st.1, st.2.insert k v) := by
  simp only [keys, List.mem_cons, List.mem_singleton, List.not_mem_nil, or_false] at hk
  rcases hk with rfl | rfl | rfl | rfl | rfl | rfl | rfl | rfl | rfl | rfl <;>
  · simp only [parseLine, ht]
    simp [keys, startsWith, List.isPrefixOf, constArtistKey, constSimilarArtistsKey,
      constAlbumArtistKey, constDateKey, constExactKey, constAlbumKey, constTitleKey,
      constGenreKey, constFileKey, constExcludeKey, constRuleKey, constRatingKey,
      constDurationKey, constKeyValSep, mid]

/-- A line whose trimmed form is `Composer:` or `Comment:` followed by a value leaves the state
of the line loop as it was: neither key is in the loader's list. -/
theorem parseLine_composer_comment (st : Entry × Rule) (l v : QString)
    (ht : trimmed l = constComposerKey ++ constKeyValSep :: v ∨
      trimmed l = constCommentKey ++ constKeyValSep :: v) :
    parseLine st l = st := by
  rcases ht with ht | ht <;>
  · simp only [parseLine, ht]
    simp [keys, startsWith, List.isPrefixOf, constArtistKey, constSimilarArtistsKey,
      constAlbumArtistKey, constDateKey, constExactKey, constAlbumKey, constTitleKey,
      constGenreKey, constFileKey, constExcludeKey, constRuleKey, constRatingKey,
      constDurationKey, constKeyValSep, constComposerKey, constCommentKey]

end RulesPlaylists

namespace RulesPlaylists

open QString

/-! ## C11: the rule count of the sub-text -/

end RulesPlaylists

namespace RulesPlaylists

open QString

/-! ## C12: ignored lines -/

/-- The key loop leaves the rule in progress as it was when no key of the list, followed by a
colon, starts the line. -/
theorem foldl_keys_of_no_match (str : QString) (ks : List QString) (r : Rule)
    (h : ∀ k ∈ ks, startsWith str (k ++ [constKeyValSep]) = false) :
    ks.foldl
      (fun r k => if startsWith str (k ++ [constKeyValSep]) then r.insert k (mid str (k.length + 1))
        else r) r = r := by
  induction ks generalizing r with
  | nil => rfl
  | cons k ks ih =>
    rw [List.foldl_cons, h k (by simp)]
    exact ih r (fun k' hk' => h k' (by simp [hk']))

/-- An ignored line leaves the state of the line loop as it was. -/
theorem parseLine_ignored (st : Entry × Rule) (l : QString)
    (hign : (trimmed l).isEmpty = true ∨ startsWith (trimmed l) [Char.ofNat 35] = true ∨
      (trimmed l ≠ constRuleKey ∧
        startsWith (trimmed l) (constRatingKey ++ [constKeyValSep]) = false ∧
        startsWith (trimmed l) (constDurationKey ++ [constKeyValSep]) = false ∧
        ∀ k ∈ keys, startsWith (trimmed l) (k ++ [constKeyValSep]) = false)) :
    parseLine st l = st := by
  simp only [parseLine]
  rcases hign with h | h | ⟨h1, h2, h3, h4⟩
  · simp [h]
  · simp [h]
  · by_cases h0 : (List.isEmpty (trimmed l) || startsWith (trimmed l) [Char.ofNat 35]) = true
    · rw [if_pos h0]
    · rw [if_neg h0, if_neg h1, if_neg (by simp [h2]), if_neg (by simp [h3]),
        foldl_keys_of_no_match _ _ _ h4]

/-- The collection `loadLocal` builds holds one entry for every listed file that can be opened,
whatever its text. -/
theorem loadLocal_entryList_map (env : Env) (m : RulesPlaylists)
    (files : List (QString × QString)) (h : m.dir = some files) :
    (loadLocal env m).entryList =
      ((rulesFiles env files).filter (fun f => env.canOpenRead f.1)).map
        (fun f => parseFile env f.1 (readAll f.2)) := by
  rw [loadLocal_entryList env m files h]
  generalize rulesFiles env files = fs
  induction fs with
  | nil => rfl
  | cons f fs ih =>
    by_cases hc : env.canOpenRead f.1 = true
    · simp [List.filterMap_cons, hc, ih]
    · simp [List.filterMap_cons, hc, ih]

/-- C12 (amended): ignored lines do not change the parse.  A stored line without line feed
which, once its carriage returns are dropped by the read in text mode and it is trimmed, is empty,
or starts with `#`, or is neither `Rule` nor starts with `Rating:`, `Duration:` or a key of the
loader followed by a colon, leaves the state of the line loop as it was; the stored text with the
line inserted after a line break, at the start or at the end loads as the same entry as the
stored text without it.  For a line without carriage return the condition is on the line itself.
Every listed file that can be opened contributes its entry to the collection, whatever its
text. -/
theorem ignored_line_no_effect (env : Env) (rf a b l : QString) (pre post : List QString)
    (m : RulesPlaylists) (files : List (QString × QString)) (hl : newline ∉ l)
    (hign : (trimmed (readAll l)).isEmpty = true ∨
      startsWith (trimmed (readAll l)) [Char.ofNat 35] = true ∨
      (trimmed (readAll l) ≠ constRuleKey ∧
        startsWith (trimmed (readAll l)) (constRatingKey ++ [constKeyValSep]) = false ∧
        startsWith (trimmed (readAll l)) (constDurationKey ++ [constKeyValSep]) = false ∧
        ∀ k ∈ keys, startsWith (trimmed (readAll l)) (k ++ [constKeyValSep]) = false)) :
    (∀ st, parseLine st (readAll l) = st) ∧
    (∀ st, (pre ++ [readAll l] ++ post).foldl parseLine st =
      (pre ++ post).foldl parseLine st) ∧
    parseFile env rf (readAll (a ++ [newline] ++ l ++ [newline] ++ b)) =
      parseFile env rf (readAll (a ++ [newline] ++ b)) ∧
    parseFile env rf (readAll (l ++ [newline] ++ b)) = parseFile env rf (readAll b) ∧
    parseFile env rf (readAll (a ++ [newline] ++ l)) = parseFile env rf (readAll a) ∧
    (carriageReturn ∉ l → readAll l = l) ∧
    (m.dir = some files →
      (loadLocal env m).entryList =
        ((rulesFiles env files).filter (fun f => env.canOpenRead f.1)).map
          (fun f => parseFile env f.1 (readAll f.2))) := by
  have hstep : ∀ st, parseLine st (readAll l) = st :=
    fun st => parseLine_ignored st (readAll l) hign
  have hfold : ∀ st : Entry × Rule,
      (pre ++ [readAll l] ++ post).foldl parseLine st = (pre ++ post).foldl parseLine st := by
    intro st
    simp [List.foldl_append, hstep]
  have hins := parseFile_readAll_insert_noop env rf a b l hl hstep
  exact ⟨hstep, hfold, hins.1, hins.2.1, hins.2.2, readAll_of_not_mem l,
    loadLocal_entryList_map env m files⟩

/-- C12 (amended) on sample texts: a comment line stored with a carriage return at its end, a
blank line and an unknown line inserted into a stored text leave the loaded entry as it is, and
the collection loaded from the directory of `sampleStore` is the entry of its single file. -/
theorem ignored_line_no_effect_witness :
    parseFile sampleEnv "Favorites.rules".toList
        (readAll (sampleHead ++ [newline] ++ ("# a comment".toList ++ [carriageReturn]) ++
          [newline] ++ sampleTail)) =
      parseFile sampleEnv "Favorites.rules".toList
        (readAll (sampleHead ++ [newline] ++ sampleTail)) ∧
    parseFile sampleEnv "Favorites.rules".toList
        (readAll ("   ".toList ++ [newline] ++ sampleText)) =
      parseFile sampleEnv "Favorites.rules".toList (readAll sampleText) ∧
    parseFile sampleEnv "Favorites.rules".toList
        (readAll (sampleText ++ [newline] ++ "Mood:calm".toList)) =
      parseFile sampleEnv "Favorites.rules".toList (readAll sampleText) ∧
    (parseFile sampleEnv "Favorites.rules".toList (readAll sampleText)).rules =
      [[(constArtistKey, "Bach".toList), (constTitleKey, "Air".toList)]] ∧
    (loadLocal sampleEnv sampleStore).entryList =
      [parseFile sampleEnv "Favorites.rules".toList (readAll (saveText sampleEnv favorites))] :=
  ⟨(ignored_line_no_effect sampleEnv "Favorites.rules".toList sampleHead sampleTail
      ("# a comment".toList ++ [carriageReturn]) [] [] sampleStore [] (by decide)
      (Or.inr (Or.inl (by decide)))).2.2.1,
    (ignored_line_no_effect sampleEnv "Favorites.rules".toList sampleHead sampleText
      "   ".toList [] [] sampleStore [] (by decide) (Or.inl (by decide))).2.2.2.1,
    (ignored_line_no_effect sampleEnv "Favorites.rules".toList sampleText sampleTail
      "Mood:calm".toList [] [] sampleStore [] (by decide)
      (Or.inr (Or.inr ⟨by decide, by decide, by decide, by decide⟩))).2.2.2.2.1,
    by decide,
    (ignored_line_no_effect sampleEnv "Favorites.rules".toList sampleHead sampleTail
      "# a comment".toList [] [] sampleStore
      [("Favorites.rules".toList, saveText sampleEnv favorites)] (by decide)
      (Or.inr (Or.inl (by decide)))).2.2.2.2.2.2 rfl⟩

/-- C12 as stated fails: the stored line `brokenRule` (`Rule` with a carriage return in its
middle) holds no line feed and, trimmed, is not `Rule` and starts with neither `Rating:`,
`Duration:` nor any of the twelve field keys followed by a colon.  Yet the file with it inserted
between the lines `Artist:Bach` and `Title:Air` loads with two rules, the file without it with
one: the read in text mode drops the carriage return and the line loop sees `Rule`. -/
theorem ignored_line_no_effect_counterexample :
    newline ∉ brokenRule ∧ (trimmed brokenRule).isEmpty = false ∧
    startsWith (trimmed brokenRule) [Char.ofNat 35] = false ∧
    trimmed brokenRule ≠ constRuleKey ∧
    startsWith (trimmed brokenRule) (constRatingKey ++ [constKeyValSep]) = false ∧
    startsWith (trimmed brokenRule) (constDurationKey ++ [constKeyValSep]) = false ∧
    (∀ k ∈ constComposerKey :: constCommentKey :: keys,
      startsWith (trimmed brokenRule) (k ++ [constKeyValSep]) = false) ∧
    (loadLocal sampleEnv (storeOver (sampleHead ++ sampleTitle))).entryList.map Entry.rules =
      [[[(constArtistKey, "Bach".toList), (constTitleKey, "Air".toList)]]] ∧
    (loadLocal sampleEnv
        (storeOver (sampleHead ++ brokenRule ++ [newline] ++ sampleTitle))).entryList.map
        Entry.rules =
      [[[(constArtistKey, "Bach".toList)], [(constTitleKey, "Air".toList)]]] := by
  decide

end RulesPlaylists
